import Mathlib

/-!
Verification of the segregated-free-list memory allocator in `src/mm.c`
(RICE-COMP321-S23/malloc-lily-michelle).

The allocator is shallowly embedded at the block level: the heap is the
physical sequence of blocks between the prologue and the epilogue, each block
carrying its boundary-tag size (header = footer; the checker's
header/footer-mismatch diagnostics are about corruption states that this model
cannot represent) and its allocated bit.  The ten segregated free lists are
modelled by the per-class lists of block addresses they hold; a block's address
is its payload offset from the first block (the base address cancels out of
every comparison made by the code).  The doubly-linked pointer structure of
`list_insert` / `list_remove` is modelled separately and exactly
(`Node`, `list_insert`, `list_remove` below) and is related to the
address-list abstraction by the insert/remove round-trip theorem.

Sizes are `size_t` values; they are modelled as `Nat`, with the two places
where wrap-around is reachable (`next_power_of_2`'s decrement/increment)
carrying an explicit `% 2^64`.  All other arithmetic in the source acts on
block sizes bounded far below `2^64` on every path exercised by the theorems.
-/

namespace MM

/-- Word size in bytes, `sizeof(void *)` on the 64-bit target (mm.c line 42). -/
def WSIZE : Nat := 8

/-- Double-word size in bytes (mm.c line 43). -/
def DSIZE : Nat := 2 * WSIZE

/-- Alignment size in bytes (mm.c line 44). -/
def ALIGN_SIZE : Nat := 8

/-- Number of segregated free-list size classes (mm.c line 45). -/
def SEGSIZE : Nat := 10

/-- Heap-extension chunk, in bytes (mm.c line 46). -/
def CHUNKSIZE : Nat := 4096

/-- `seg_index` (mm.c lines 574-599): maps a block size to its size-class
index by linear threshold comparison. -/
def seg_index (size : Nat) : Nat :=
  if size ≤ 32 then 0
  else if size ≤ 64 then 1
  else if size ≤ 128 then 2
  else if size ≤ 256 then 3
  else if size ≤ 512 then 4
  else if size ≤ 1024 then 5
  else if size ≤ 2048 then 6
  else if size ≤ 4096 then 7
  else if size ≤ 8192 then 8
  else 9

theorem seg_index_lt_segsize (size : Nat) : seg_index size < SEGSIZE := by
  unfold seg_index SEGSIZE
  split_ifs <;> omega

/-- `seg_index` packaged with its range proof, for indexing the class table. -/
def segFin (size : Nat) : Fin SEGSIZE := ⟨seg_index size, seg_index_lt_segsize size⟩

/-- `next_power_of_2` (mm.c lines 650-664): the bit-smearing round-up to a
power of two, on 64-bit `size_t` (the decrement and increment wrap mod 2^64;
the five shift-or steps smear at most 32 low bits, exactly as the source
writes them). -/
def next_power_of_2 (n : Nat) : Nat :=
  let n1 := (n + (2 ^ 64 - 1)) % 2 ^ 64
  let n2 := n1 ||| (n1 >>> 1)
  let n3 := n2 ||| (n2 >>> 2)
  let n4 := n3 ||| (n3 >>> 4)
  let n5 := n4 ||| (n4 >>> 8)
  let n6 := n5 ||| (n5 >>> 16)
  (n6 + 1) % 2 ^ 64

/-- The overhead/alignment adjustment shared by `mm_malloc` (lines 162-166)
and `mm_realloc` (lines 235-239): a payload request of `s` bytes becomes a
total block size of `2*DSIZE`, or `s` plus header/footer overhead rounded up
to the alignment unit. -/
def adjust (s : Nat) : Nat :=
  if s ≤ DSIZE then 2 * DSIZE
  else ALIGN_SIZE * ((s + DSIZE + (ALIGN_SIZE - 1)) / ALIGN_SIZE)

/-- The full request adjustment of `mm_malloc` (lines 157-166): small
requests (at most `16 * DSIZE`) are first rounded up to the next power of
two, then the overhead adjustment is applied. -/
def asizeOf (size : Nat) : Nat :=
  adjust (if size ≤ 16 * DSIZE then next_power_of_2 size else size)

theorem adjust_ge (s : Nat) : 2 * DSIZE ≤ adjust s := by
  unfold adjust DSIZE WSIZE ALIGN_SIZE
  split_ifs with h
  · omega
  · have h5 : 5 ≤ (s + 16 + 7) / 8 := by
      have : 40 / 8 ≤ (s + 16 + 7) / 8 := Nat.div_le_div_right (by omega)
      simpa using this
    omega

/-! ### Pointer-level model of the doubly-linked free-list nodes

`struct block_list` (mm.c lines 70-74) and the two link-surgery routines
`list_insert` (lines 609-621) and `list_remove` (lines 630-641), modelled
over memory as a map from node addresses to their two link fields.  The
sentinel table `seg_first` is a map from class index to sentinel address. -/

/-- `struct block_list` (mm.c lines 70-74): the two intrusive link fields a
free block stores in its payload, holding addresses of other nodes. -/
structure Node where
  next_list : Nat
  prev_list : Nat
deriving DecidableEq, Repr

/-- `list_insert` (mm.c lines 609-621) with the sentinel address made
explicit: insert `bp` right after `start`, performing the four field writes
in source order. -/
def insert_after (m : Nat → Node) (bp start : Nat) : Nat → Node :=
  let new_after := (m start).next_list
  let m1 := Function.update m bp ⟨new_after, start⟩
  let m2 := Function.update m1 new_after ⟨(m1 new_after).next_list, bp⟩
  Function.update m2 start ⟨bp, (m2 start).prev_list⟩

/-- `list_insert` (mm.c lines 609-621): the sentinel is
`&seg_first[seg_index(size)]`, located through the sentinel-address table. -/
def list_insert (seg_first : Fin SEGSIZE → Nat) (m : Nat → Node) (bp size : Nat) :
    Nat → Node :=
  insert_after m bp (seg_first (segFin size))

/-- `list_remove` (mm.c lines 630-641): unlink `bp` using its own stored
links, performing the two field writes in source order. -/
def list_remove (m : Nat → Node) (bp : Nat) : Nat → Node :=
  let new_prev := (m bp).prev_list
  let new_next := (m bp).next_list
  let m1 := Function.update m new_prev ⟨new_next, (m new_prev).prev_list⟩
  Function.update m1 new_next ⟨(m1 new_next).next_list, new_prev⟩

/-! ### Block-level model of the heap

The physical heap between the prologue and the epilogue is the list of its
blocks in address order; a block is its boundary-tag content (size in bytes,
allocated bit).  A block's address is the byte offset of its payload from the
first block's payload, i.e. the sum of the sizes of the blocks before it
(`NEXT_BLKP`/`PREV_BLKP` walk exactly these sums).  Each segregated class
holds the list of the addresses of its free blocks, in list order (head =
most recently inserted); this is the observable content of the circular
doubly-linked lists, whose pointer-level surgery is modelled above. -/

/-- A block's boundary-tag content: size in bytes (header = footer) and
allocated bit. -/
structure Blk where
  size : Nat
  alloc : Bool
deriving DecidableEq, Repr

/-- The allocator state: the block sequence of the heap and the contents of
the `SEGSIZE` segregated free lists (`seg_first`, mm.c line 80). -/
structure Heap where
  blocks : List Blk
  flists : Fin SEGSIZE → List Nat

/-- Sum of the sizes of a run of blocks. -/
def sizeSum (bs : List Blk) : Nat := (bs.map Blk.size).sum

/-- Address (payload offset) of the `k`-th block of `bs`. -/
def addrOf (bs : List Blk) (k : Nat) : Nat := sizeSum (bs.take k)

/-- Index of the block whose address is `x`, scanning `bs` laid out from
base address `a` (the model's inverse of pointer identity). -/
def idxAt (a : Nat) : List Blk → Nat → Option Nat
  | [], _ => none
  | b :: bs, x => if a = x then some 0 else (idxAt (a + b.size) bs x).map (· + 1)

/-- The boundary tag the code reads through `HDRP(bp)` for the block pointer
with address `x` (model lookup; dereferencing an address that is no block's
address is undefined behavior in the source and yields `none` here). -/
def blockAt (h : Heap) (x : Nat) : Option Blk :=
  match idxAt 0 h.blocks x with
  | some k => h.blocks[k]?
  | none => none

/-- Effect of `list_insert` (mm.c lines 609-621) on the lists' contents:
`bp` becomes the head of class `seg_index size` (insertion right after the
sentinel of that class). -/
def listsInsert (fl : Fin SEGSIZE → List Nat) (bp size : Nat) : Fin SEGSIZE → List Nat :=
  Function.update fl (segFin size) (bp :: fl (segFin size))

/-- Effect of `list_remove` (mm.c lines 630-641) on the lists' contents:
`bp` is unlinked from the (unique, under the free-list invariant) position
it occupies. -/
def listsRemove (fl : Fin SEGSIZE → List Nat) (bp : Nat) : Fin SEGSIZE → List Nat :=
  fun i => (fl i).erase bp

/-- `coalesce` (mm.c lines 274-317): boundary-tag coalescing of the newly
freed block at position `k`.  The allocated bits of the physical neighbours
are read through the boundary tags; the prologue (before block 0) and the
epilogue (after the last block) read as allocated.  Returns the new state
and the address of the coalesced block.  (Looking up a position that is not
a block is unreachable from the callers and returns the state unchanged.) -/
def coalesce (h : Heap) (k : Nat) : Heap × Nat :=
  match h.blocks[k]? with
  | none => (h, 0)
  | some b =>
    let prev_alloc : Bool := k == 0 || ((h.blocks[k - 1]?).map Blk.alloc).getD true
    let next_alloc : Bool := ((h.blocks[k + 1]?).map Blk.alloc).getD true
    if prev_alloc && next_alloc then                                 -- Case 1
      let size := b.size
      ({ blocks := h.blocks,
         flists := listsInsert h.flists (addrOf h.blocks k) size },
       addrOf h.blocks k)
    else if prev_alloc && !next_alloc then                           -- Case 2
      let sizeN := ((h.blocks[k + 1]?).map Blk.size).getD 0
      let size := b.size + sizeN
      let fl := listsRemove h.flists (addrOf h.blocks (k + 1))
      ({ blocks := h.blocks.take k ++ ⟨size, false⟩ :: h.blocks.drop (k + 2),
         flists := listsInsert fl (addrOf h.blocks k) size },
       addrOf h.blocks k)
    else if !prev_alloc && next_alloc then                           -- Case 3
      let sizeP := ((h.blocks[k - 1]?).map Blk.size).getD 0
      let size := b.size + sizeP
      let fl := listsRemove h.flists (addrOf h.blocks (k - 1))
      ({ blocks := h.blocks.take (k - 1) ++ ⟨size, false⟩ :: h.blocks.drop (k + 1),
         flists := listsInsert fl (addrOf h.blocks (k - 1)) size },
       addrOf h.blocks (k - 1))
    else                                                             -- Case 4
      let sizeP := ((h.blocks[k - 1]?).map Blk.size).getD 0
      let sizeN := ((h.blocks[k + 1]?).map Blk.size).getD 0
      let size := b.size + sizeP + sizeN
      let fl := listsRemove (listsRemove h.flists (addrOf h.blocks (k - 1)))
                  (addrOf h.blocks (k + 1))
      ({ blocks := h.blocks.take (k - 1) ++ ⟨size, false⟩ :: h.blocks.drop (k + 2),
         flists := listsInsert fl (addrOf h.blocks (k - 1)) size },
       addrOf h.blocks (k - 1))

/-- The header/footer writes of `mm_free` (mm.c lines 199-201): clear the
allocated bit of block `k`, size unchanged. -/
def markFree (bs : List Blk) (k : Nat) : List Blk :=
  match bs[k]? with
  | some b => bs.set k ⟨b.size, false⟩
  | none => bs

/-- `mm_free` (mm.c lines 189-203): a null pointer is a no-op; otherwise
clear the allocated bit and coalesce.  (`coalesce` itself inserts the result
into its free list; `mm_free` performs no separate insertion.) -/
def mm_free (h : Heap) (bp : Option Nat) : Heap :=
  match bp with
  | none => h
  | some a =>
    match idxAt 0 h.blocks a with
    | none => h
    | some k => (coalesce { h with blocks := markFree h.blocks k } k).1

/-- Whether the free block at address `a` fits an adjusted request of
`asize` bytes, as tested by `find_fit` (mm.c line 366):
`asize <= GET_SIZE(HDRP(bp))`. -/
def fitsAt (h : Heap) (asize a : Nat) : Bool :=
  match blockAt h a with
  | some b => asize ≤ b.size
  | none => false

/-- The class indices scanned by `find_fit`'s outer loop (mm.c line 361):
`seg_index(asize)` up to `SEGSIZE - 1`, ascending. -/
def findFitClasses (asize : Nat) : List (Fin SEGSIZE) :=
  (List.finRange SEGSIZE).filter fun i => seg_index asize ≤ i.val

/-- `find_fit` (mm.c lines 354-373): first fit over the scanned classes in
ascending order, within a class in list order. -/
def find_fit (h : Heap) (asize : Nat) : Option Nat :=
  (findFitClasses asize).findSome? fun i => (h.flists i).find? fun a => fitsAt h asize a

/-- `place` (mm.c lines 384-402): remove the chosen free block from its
list; split it when the remainder would be at least the minimum block size
(`2 * DSIZE`), reinserting the remainder, otherwise allocate it whole. -/
def place (h : Heap) (a asize : Nat) : Heap :=
  match idxAt 0 h.blocks a with
  | none => h
  | some k =>
    let csize := ((h.blocks[k]?).map Blk.size).getD 0
    let fl := listsRemove h.flists a
    if 2 * DSIZE ≤ csize - asize then
      { blocks := h.blocks.take k ++ ⟨asize, true⟩ :: ⟨csize - asize, false⟩ ::
          h.blocks.drop (k + 1),
        flists := listsInsert fl (a + asize) (csize - asize) }
    else
      { blocks := h.blocks.set k ⟨csize, true⟩, flists := fl }

/-- `extend_heap` (mm.c lines 326-344): round the word count up to an even
number, append that many bytes as a new free block where the epilogue was,
and coalesce it with a possibly free block at the old heap tail.  `ok` is
whether `mem_sbrk` succeeds; on failure nothing changes and `NULL` is
returned. -/
def extend_heap (h : Heap) (words : Nat) (ok : Bool) : Option (Heap × Nat) :=
  if ok then
    let size := if words % 2 = 1 then (words + 1) * WSIZE else words * WSIZE
    some (coalesce { h with blocks := h.blocks ++ [⟨size, false⟩] } h.blocks.length)
  else none

/-- `mm_malloc` (mm.c lines 146-180): adjust the request, search the free
lists, place on a fit; otherwise extend the heap by
`max(asize, CHUNKSIZE)` bytes and place there.  `ok` is whether `mem_sbrk`
succeeds if extension is needed. -/
def mm_malloc (h : Heap) (size : Nat) (ok : Bool) : Option Nat × Heap :=
  if size = 0 then (none, h)
  else
    match find_fit h (asizeOf size) with
    | some bp => (some bp, place h bp (asizeOf size))
    | none =>
      match extend_heap h (max (asizeOf size) CHUNKSIZE / WSIZE) ok with
      | none => (none, h)
      | some (h1, bp) => (some bp, place h1 bp (asizeOf size))

/-- `mm_realloc` (mm.c lines 218-260): size zero frees; a null pointer
mallocs; otherwise the request stays in place when
`asize < oldsize + DSIZE` (with `oldsize = GET_SIZE(HDRP(ptr)) - DSIZE`),
else a fresh block of `SEGSIZE * size` bytes is requested, the old payload
copied (the copy moves payload bytes only, which are outside this
block-level state) and the old block freed; if the fresh allocation fails
the original heap is returned untouched with `NULL`. -/
def mm_realloc (h : Heap) (ptr : Option Nat) (size : Nat) (ok : Bool) :
    Option Nat × Heap :=
  if size = 0 then (none, mm_free h ptr)
  else
    match ptr with
    | none => mm_malloc h size ok
    | some a =>
      match blockAt h a with
      | none => (none, h)
      | some b =>
        if adjust size < (b.size - DSIZE) + DSIZE then (some a, h)
        else
          match mm_malloc h (SEGSIZE * size) ok with
          | (none, h1) => (none, h1)
          | (some newptr, h1) => (some newptr, mm_free h1 (some a))

/-- `mm_init` (mm.c lines 107-135): empty sentinel table, prologue/epilogue
bracket an empty block sequence, then one `CHUNKSIZE`-byte extension.  `ok`
is whether `mem_sbrk` succeeds. -/
def mm_init (ok : Bool) : Option Heap :=
  match extend_heap { blocks := [], flists := fun _ => [] } (CHUNKSIZE / WSIZE) ok with
  | none => none
  | some (h, _) => some h

/-! ### The consistency checker's adjacency scan

`checkheap`'s uncoalesced-adjacency walk (mm.c lines 478-485).  The walk is
modelled as the finite prologue-to-epilogue traversal the surrounding code
intends, visiting the consecutive pairs of the chain
prologue, block 0, ..., block n-1, epilogue, with the report condition
exactly as the source writes it: `GET_ALLOC(current) && !GET_ALLOC(next)`.
(Two further defects of the source walk are not modelled: its loop condition
`start != next` never becomes false, and `GET_ALLOC` is applied to block
payload pointers rather than to their headers; both only make the walk
stray further from the specified scan.) -/

/-- The allocated bits seen along the walk: the prologue and the epilogue
read as allocated, the blocks contribute their allocated bits in address
order. -/
def scanBits (bs : List Blk) : List Bool :=
  true :: (bs.map Blk.alloc ++ [true])

/-- The pair positions at which the scan as written reports
"Ajacent blocks are free and uncoalesced!": pairs whose first member is
allocated and whose second is free (mm.c line 481). -/
def reportedPairs (bs : List Blk) : List Nat :=
  (List.range (scanBits bs).length).filter fun i =>
    match (scanBits bs)[i]?, (scanBits bs)[i + 1]? with
    | some x, some y => x && !y
    | _, _ => false

/-- The pair positions holding two physically adjacent free blocks — the
condition the diagnostic is specified to detect. -/
def bothFreePairs (bs : List Blk) : List Nat :=
  (List.range (scanBits bs).length).filter fun i =>
    match (scanBits bs)[i]?, (scanBits bs)[i + 1]? with
    | some x, some y => !x && !y
    | _, _ => false

/-! ### The free-list membership invariant -/

/-- All blocks of a run have positive size (every real block is at least
`2 * DSIZE` bytes; positivity is what keeps distinct blocks at distinct
addresses). -/
def sizesPos (bs : List Blk) : Prop := ∀ b ∈ bs, 0 < b.size

/-- The addresses of the free blocks of class `i` in a run of blocks laid
out from base address `a`, in address order. -/
def freeAddrs (a : Nat) (i : Nat) : List Blk → List Nat
  | [] => []
  | b :: bs =>
    (if b.alloc = false ∧ seg_index b.size = i then [a] else []) ++
      freeAddrs (a + b.size) i bs

/-- The addresses of the allocated blocks of a run laid out from base
address `a`. -/
def allocAddrs (a : Nat) : List Blk → List Nat
  | [] => []
  | b :: bs => (if b.alloc then [a] else []) ++ allocAddrs (a + b.size) bs

/-- The free-list consistency invariant: block sizes are positive, and each
segregated class holds, up to order, exactly the addresses of the free
blocks whose size classifies there.  (Distinctness of block addresses makes
this equivalent to: every Free block is a node of exactly the one list at
`seg_index` of its size, and no Allocated block is a node of any list.) -/
def Inv (h : Heap) : Prop :=
  sizesPos h.blocks ∧
    ∀ i : Fin SEGSIZE, (h.flists i).Perm (freeAddrs 0 i.val h.blocks)

/-- `x` is the address of an allocated block of `h`. -/
def AllocAt (h : Heap) (x : Nat) : Prop := x ∈ allocAddrs 0 h.blocks

/-- State seen by `coalesce` on entry: block `k` is marked free in its
boundary tag but not yet a member of any list (its caller just cleared the
allocated bit, or just appended it to the heap), and the lists are otherwise
consistent. -/
def PreCoal (h : Heap) (k : Nat) : Prop :=
  sizesPos h.blocks ∧ k < h.blocks.length ∧
    (h.blocks[k]?).map Blk.alloc = some false ∧
    ∀ i : Fin SEGSIZE,
      (h.flists i).Perm ((freeAddrs 0 i.val h.blocks).erase (addrOf h.blocks k))

/-- The claim's reading of the invariant, block by block: a Free block is a
member of the list of its class, exactly once, and of no other list; an
Allocated block is a member of no list. -/
def FLMem (h : Heap) : Prop :=
  ∀ k, ∀ hk : k < h.blocks.length,
    ((h.blocks.get ⟨k, hk⟩).alloc = false →
      (h.flists (segFin (h.blocks.get ⟨k, hk⟩).size)).count (addrOf h.blocks k) = 1 ∧
        ∀ i : Fin SEGSIZE, i.val ≠ seg_index (h.blocks.get ⟨k, hk⟩).size →
          addrOf h.blocks k ∉ h.flists i) ∧
    ((h.blocks.get ⟨k, hk⟩).alloc = true →
      ∀ i : Fin SEGSIZE, addrOf h.blocks k ∉ h.flists i)

instance (h : Heap) : Decidable (Inv h) := by unfold Inv sizesPos; infer_instance

instance (h : Heap) (k : Nat) : Decidable (PreCoal h k) := by
  unfold PreCoal sizesPos; infer_instance

instance (h : Heap) (x : Nat) : Decidable (AllocAt h x) := by
  unfold AllocAt; infer_instance

instance (h : Heap) : Decidable (FLMem h) := by unfold FLMem; infer_instance

/-! ### Basic facts about block runs, addresses and address lists -/

theorem sizeSum_cons (b : Blk) (bs : List Blk) :
    sizeSum (b :: bs) = b.size + sizeSum bs := by
  simp [sizeSum]

theorem sizeSum_append (l1 l2 : List Blk) :
    sizeSum (l1 ++ l2) = sizeSum l1 + sizeSum l2 := by
  simp [sizeSum]

theorem freeAddrs_append (a i : Nat) (l1 l2 : List Blk) :
    freeAddrs a i (l1 ++ l2) =
      freeAddrs a i l1 ++ freeAddrs (a + sizeSum l1) i l2 := by
  induction l1 generalizing a with
  | nil => simp [freeAddrs, sizeSum]
  | cons b bs ih =>
    simp only [List.cons_append, freeAddrs]
    rw [show bs.append l2 = bs ++ l2 from rfl, ih, sizeSum_cons]
    simp [Nat.add_assoc, List.append_assoc]

theorem allocAddrs_append (a : Nat) (l1 l2 : List Blk) :
    allocAddrs a (l1 ++ l2) =
      allocAddrs a l1 ++ allocAddrs (a + sizeSum l1) l2 := by
  induction l1 generalizing a with
  | nil => simp [allocAddrs, sizeSum]
  | cons b bs ih =>
    simp only [List.cons_append, allocAddrs]
    rw [show bs.append l2 = bs ++ l2 from rfl, ih, sizeSum_cons]
    simp [Nat.add_assoc, List.append_assoc]

theorem sizesPos_take {bs : List Blk} (hp : sizesPos bs) (k : Nat) :
    sizesPos (bs.take k) :=
  fun b hb => hp b (List.take_subset _ _ hb)

theorem sizesPos_drop {bs : List Blk} (hp : sizesPos bs) (k : Nat) :
    sizesPos (bs.drop k) :=
  fun b hb => hp b (List.drop_subset _ _ hb)

theorem le_of_mem_freeAddrs {a i x : Nat} {bs : List Blk}
    (hx : x ∈ freeAddrs a i bs) : a ≤ x := by
  induction bs generalizing a with
  | nil => simp [freeAddrs] at hx
  | cons b t ih =>
    simp only [freeAddrs, List.mem_append] at hx
    rcases hx with hx | hx
    · by_cases hc : b.alloc = false ∧ seg_index b.size = i
      · simp [hc] at hx; omega
      · simp [hc] at hx
    · have h := ih hx
      omega

theorem lt_of_mem_freeAddrs {a i x : Nat} {bs : List Blk} (hp : sizesPos bs)
    (hx : x ∈ freeAddrs a i bs) : x < a + sizeSum bs := by
  induction bs generalizing a with
  | nil => simp [freeAddrs] at hx
  | cons b t ih =>
    have hb : 0 < b.size := hp b (by simp)
    have hp' : sizesPos t := fun c hc => hp c (by simp [hc])
    simp only [freeAddrs, List.mem_append] at hx
    rcases hx with hx | hx
    · by_cases hc : b.alloc = false ∧ seg_index b.size = i
      · simp [hc] at hx
        simp [sizeSum_cons]; omega
      · simp [hc] at hx
    · have h := ih hp' hx
      simp [sizeSum_cons]; omega

theorem le_of_mem_allocAddrs {a x : Nat} {bs : List Blk}
    (hx : x ∈ allocAddrs a bs) : a ≤ x := by
  induction bs generalizing a with
  | nil => simp [allocAddrs] at hx
  | cons b t ih =>
    simp only [allocAddrs, List.mem_append] at hx
    rcases hx with hx | hx
    · by_cases hc : b.alloc
      · simp [hc] at hx; omega
      · simp [hc] at hx
    · have h := ih hx
      omega

theorem take_get_drop (bs : List Blk) (k : Nat) (hk : k < bs.length) :
    bs = bs.take k ++ bs.get ⟨k, hk⟩ :: bs.drop (k + 1) := by
  conv_lhs => rw [← List.take_append_drop k bs]
  rw [← List.getElem_cons_drop bs k hk]
  rfl

theorem addrOf_take (bs : List Blk) (k : Nat) :
    addrOf bs k = sizeSum (bs.take k) := rfl

theorem addrOf_succ (bs : List Blk) (k : Nat) (hk : k < bs.length) :
    addrOf bs (k + 1) = addrOf bs k + (bs.get ⟨k, hk⟩).size := by
  unfold addrOf
  rw [List.take_succ, sizeSum_append]
  simp [sizeSum, List.getElem?_eq_getElem hk]

theorem idxAt_addrOf {bs : List Blk} (hp : sizesPos bs) (a : Nat) (k : Nat)
    (hk : k < bs.length) : idxAt a bs (a + addrOf bs k) = some k := by
  induction bs generalizing a k with
  | nil => simp at hk
  | cons b t ih =>
    have hb : 0 < b.size := hp b (by simp)
    have hp' : sizesPos t := fun c hc => hp c (by simp [hc])
    match k with
    | 0 => simp [idxAt, addrOf, sizeSum]
    | k' + 1 =>
      have hk' : k' < t.length := by simpa using hk
      have haddr : addrOf (b :: t) (k' + 1) = b.size + addrOf t k' := by
        unfold addrOf
        simp [List.take_succ_cons, sizeSum_cons]
      rw [haddr]
      have hne : a ≠ a + (b.size + addrOf t k') := by omega
      simp only [idxAt, if_neg hne]
      have := ih hp' (a + b.size) k' hk'
      rw [show a + (b.size + addrOf t k') = a + b.size + addrOf t k' by omega, this]
      rfl

theorem mem_freeAddrs_iff {bs : List Blk} (hp : sizesPos bs) (a i x : Nat) :
    x ∈ freeAddrs a i bs ↔
      ∃ k, ∃ hk : k < bs.length, x = a + addrOf bs k ∧
        (bs.get ⟨k, hk⟩).alloc = false ∧ seg_index (bs.get ⟨k, hk⟩).size = i := by
  induction bs generalizing a with
  | nil => simp [freeAddrs]
  | cons b t ih =>
    have hb : 0 < b.size := hp b (by simp)
    have hp' : sizesPos t := fun c hc => hp c (by simp [hc])
    constructor
    · intro hx
      simp only [freeAddrs, List.mem_append] at hx
      rcases hx with hx | hx
      · by_cases hc : b.alloc = false ∧ seg_index b.size = i
        · simp [hc] at hx
          exact ⟨0, by simp, by simp [hx, addrOf, sizeSum], by simp [hc.1], by simp [hc.2]⟩
        · simp [hc] at hx
      · rcases (ih hp' (a + b.size)).mp hx with ⟨k, hk, hxk, hal, hcl⟩
        refine ⟨k + 1, by simpa using Nat.succ_lt_succ hk, ?_, by simpa using hal,
          by simpa using hcl⟩
        unfold addrOf at hxk ⊢
        simp only [List.take_succ_cons, sizeSum_cons]
        omega
    · rintro ⟨k, hk, hxk, hal, hcl⟩
      match k with
      | 0 =>
        simp only [List.get] at hal hcl
        have hx0 : x = a := by
          unfold addrOf at hxk; simpa [sizeSum] using hxk
        simp [freeAddrs, hal, hcl, hx0]
      | k' + 1 =>
        have hk' : k' < t.length := by simpa using hk
        have hxk' : x = (a + b.size) + addrOf t k' := by
          unfold addrOf at hxk ⊢
          simp only [List.take_succ_cons, sizeSum_cons] at hxk
          omega
        have := (ih hp' (a + b.size)).mpr
          ⟨k', hk', hxk', by simpa using hal, by simpa using hcl⟩
        simp [freeAddrs, this]

theorem mem_allocAddrs_iff {bs : List Blk} (hp : sizesPos bs) (a x : Nat) :
    x ∈ allocAddrs a bs ↔
      ∃ k, ∃ hk : k < bs.length, x = a + addrOf bs k ∧
        (bs.get ⟨k, hk⟩).alloc = true := by
  induction bs generalizing a with
  | nil => simp [allocAddrs]
  | cons b t ih =>
    have hb : 0 < b.size := hp b (by simp)
    have hp' : sizesPos t := fun c hc => hp c (by simp [hc])
    constructor
    · intro hx
      simp only [allocAddrs, List.mem_append] at hx
      rcases hx with hx | hx
      · by_cases hc : b.alloc
        · simp [hc] at hx
          exact ⟨0, by simp, by simp [hx, addrOf, sizeSum], by simp [hc]⟩
        · simp [hc] at hx
      · rcases (ih hp' (a + b.size)).mp hx with ⟨k, hk, hxk, hal⟩
        refine ⟨k + 1, by simpa using Nat.succ_lt_succ hk, ?_, by simpa using hal⟩
        unfold addrOf at hxk ⊢
        simp only [List.take_succ_cons, sizeSum_cons]
        omega
    · rintro ⟨k, hk, hxk, hal⟩
      match k with
      | 0 =>
        simp only [List.get] at hal
        have hx0 : x = a := by
          unfold addrOf at hxk; simpa [sizeSum] using hxk
        simp [allocAddrs, hal, hx0]
      | k' + 1 =>
        have hk' : k' < t.length := by simpa using hk
        have hxk' : x = (a + b.size) + addrOf t k' := by
          unfold addrOf at hxk ⊢
          simp only [List.take_succ_cons, sizeSum_cons] at hxk
          omega
        have := (ih hp' (a + b.size)).mpr ⟨k', hk', hxk', by simpa using hal⟩
        simp [allocAddrs, this]

theorem addrOf_lt_addrOf {bs : List Blk} (hp : sizesPos bs) {j k : Nat}
    (hjk : j < k) (hk : k ≤ bs.length) : addrOf bs j < addrOf bs k := by
  induction k with
  | zero => omega
  | succ k' ih =>
    have hk' : k' < bs.length := by omega
    have hstep : addrOf bs k' < addrOf bs (k' + 1) := by
      rw [addrOf_succ bs k' hk']
      have := hp (bs.get ⟨k', hk'⟩) (List.get_mem bs k' hk')
      omega
    rcases Nat.lt_or_ge j k' with h | h
    · exact lt_trans (ih h (by omega)) hstep
    · have : j = k' := by omega
      subst this
      exact hstep

theorem addrOf_inj {bs : List Blk} (hp : sizesPos bs) {j k : Nat}
    (hj : j < bs.length) (hk : k < bs.length)
    (he : addrOf bs j = addrOf bs k) : j = k := by
  rcases Nat.lt_trichotomy j k with h | h | h
  · have := addrOf_lt_addrOf hp h (by omega); omega
  · exact h
  · have := addrOf_lt_addrOf hp h (by omega); omega

theorem sizesPos_cons {b : Blk} {t : List Blk} :
    sizesPos (b :: t) ↔ 0 < b.size ∧ sizesPos t := by
  simp [sizesPos]

theorem sizesPos_append {l1 l2 : List Blk} :
    sizesPos (l1 ++ l2) ↔ sizesPos l1 ∧ sizesPos l2 := by
  simp [sizesPos, List.mem_append, or_imp, forall_and]

theorem nodup_freeAddrs {bs : List Blk} (hp : sizesPos bs) (a i : Nat) :
    (freeAddrs a i bs).Nodup := by
  induction bs generalizing a with
  | nil => simp [freeAddrs]
  | cons b t ih =>
    have hb : 0 < b.size := hp b (by simp)
    have hp' : sizesPos t := fun c hc => hp c (by simp [hc])
    by_cases hc : b.alloc = false ∧ seg_index b.size = i
    · simp only [freeAddrs, if_pos hc, List.singleton_append, List.nodup_cons]
      refine ⟨fun hmem => ?_, ih hp' _⟩
      have := le_of_mem_freeAddrs hmem
      omega
    · simpa only [freeAddrs, if_neg hc, List.nil_append] using ih hp' _

theorem erase_opt_middle (F G : List Nat) (x : Nat) (P : Prop) [Decidable P]
    (hF : x ∉ F) (hG : x ∉ G) :
    (F ++ (if P then [x] else []) ++ G).erase x = F ++ G := by
  by_cases hP : P
  · simp only [if_pos hP]
    rw [List.append_assoc, List.erase_append_right _ hF]
    simp
  · simp only [if_neg hP, List.append_nil, List.nil_append]
    exact List.erase_of_not_mem (by simp [hF, hG])

theorem listsInsert_apply (fl : Fin SEGSIZE → List Nat) (x s : Nat) (i : Fin SEGSIZE) :
    listsInsert fl x s i = if i = segFin s then x :: fl i else fl i := by
  unfold listsInsert
  rw [Function.update_apply]
  split_ifs with h
  · subst h; rfl
  · rfl

theorem listsRemove_apply (fl : Fin SEGSIZE → List Nat) (x : Nat) (i : Fin SEGSIZE) :
    listsRemove fl x i = (fl i).erase x := rfl

theorem perm_decomp_insert {fl F G : Fin SEGSIZE → List Nat}
    (h : ∀ i, (fl i).Perm (F i ++ G i)) (x s : Nat) :
    ∀ i, ((listsInsert fl x s) i).Perm
      (F i ++ (if i = segFin s then [x] else []) ++ G i) := by
  intro i
  rw [listsInsert_apply]
  split_ifs with hi
  · refine ((h i).cons x).trans ?_
    simpa using List.perm_middle.symm
  · simpa using h i

theorem perm_decomp_remove {fl F G : Fin SEGSIZE → List Nat} {x : Nat}
    {c : Fin SEGSIZE}
    (h : ∀ i, (fl i).Perm (F i ++ (if i = c then [x] else []) ++ G i))
    (hF : ∀ i, x ∉ F i) (hG : ∀ i, x ∉ G i) :
    ∀ i, ((listsRemove fl x) i).Perm (F i ++ G i) := by
  intro i
  have he := (h i).erase x
  rwa [erase_opt_middle _ _ _ _ (hF i) (hG i)] at he

theorem freeAddrs_middle (P S : List Blk) (b : Blk) (a i : Nat) :
    freeAddrs a i (P ++ b :: S) =
      freeAddrs a i P ++
        ((if b.alloc = false ∧ seg_index b.size = i then [a + sizeSum P] else []) ++
          freeAddrs (a + sizeSum P + b.size) i S) := by
  rw [freeAddrs_append]
  simp [freeAddrs, List.append_assoc, Nat.add_assoc]

theorem allocAddrs_middle (P S : List Blk) (b : Blk) (a : Nat) :
    allocAddrs a (P ++ b :: S) =
      allocAddrs a P ++
        ((if b.alloc then [a + sizeSum P] else []) ++
          allocAddrs (a + sizeSum P + b.size) S) := by
  rw [allocAddrs_append]
  simp [allocAddrs, List.append_assoc, Nat.add_assoc]

theorem take_middle (P S : List Blk) (m : Blk) :
    (P ++ m :: S).take P.length = P := by
  induction P with
  | nil => rfl
  | cons p t ih => simpa using ih

theorem drop_middle (P S : List Blk) (m : Blk) :
    (P ++ m :: S).drop (P.length + 1) = S := by
  induction P with
  | nil => rfl
  | cons p t ih => simpa using ih

theorem getElem?_middle (P S : List Blk) (m : Blk) :
    (P ++ m :: S)[P.length]? = some m := by
  induction P with
  | nil => simp
  | cons p t ih => simpa using ih

theorem length_middle (P S : List Blk) (m : Blk) :
    (P ++ m :: S).length = P.length + S.length + 1 := by
  simp; omega

theorem addrOf_middle (P S : List Blk) (m : Blk) :
    addrOf (P ++ m :: S) P.length = sizeSum P := by
  rw [addrOf_take, take_middle]

theorem idxAt_middle {P S : List Blk} {m : Blk} (hp : sizesPos (P ++ m :: S)) :
    idxAt 0 (P ++ m :: S) (sizeSum P) = some P.length := by
  have hk : P.length < (P ++ m :: S).length := by simp
  have := idxAt_addrOf hp 0 P.length hk
  rwa [addrOf_middle, Nat.zero_add] at this

/-- The `if` guard of `freeAddrs` for a free block, written through `segFin`
for the list machinery. -/
theorem if_class_eq {b : Blk} (hfree : b.alloc = false) (i : Fin SEGSIZE) (x : Nat) :
    (if b.alloc = false ∧ seg_index b.size = i.val then [x] else ([] : List Nat)) =
      (if i = segFin b.size then [x] else []) := by
  have hiff : (b.alloc = false ∧ seg_index b.size = i.val) ↔ (i = segFin b.size) := by
    constructor
    · rintro ⟨-, hv⟩
      exact Fin.ext hv.symm
    · rintro rfl
      exact ⟨hfree, rfl⟩
  simp only [hiff]

theorem set_middle (P S : List Blk) (m v : Blk) :
    (P ++ m :: S).set P.length v = P ++ v :: S := by
  induction P with
  | nil => rfl
  | cons p t ih => simpa using ih

theorem freeAddrs_middle2 (P S : List Blk) (b c : Blk) (a i : Nat) :
    freeAddrs a i (P ++ b :: c :: S) =
      freeAddrs a i P ++
        ((if b.alloc = false ∧ seg_index b.size = i then [a + sizeSum P] else []) ++
          ((if c.alloc = false ∧ seg_index c.size = i
              then [a + sizeSum P + b.size] else []) ++
            freeAddrs (a + sizeSum P + b.size + c.size) i S)) := by
  rw [freeAddrs_middle]
  rfl

theorem if_val_eq (sz x : Nat) (i : Fin SEGSIZE) :
    (if seg_index sz = i.val then [x] else ([] : List Nat)) =
      if i = segFin sz then [x] else [] := by
  by_cases hc : seg_index sz = i.val
  · rw [if_pos hc, if_pos (Fin.ext hc.symm)]
  · rw [if_neg hc, if_neg ?_]
    intro he
    subst he
    exact hc rfl

theorem freeAddrs_middle_alloc (P S : List Blk) (s1 a i : Nat) :
    freeAddrs a i (P ++ ⟨s1, true⟩ :: S) =
      freeAddrs a i P ++ freeAddrs (a + sizeSum P + s1) i S := by
  rw [freeAddrs_middle]
  simp

theorem freeAddrs_middle_free (P S : List Blk) (s1 a i : Nat) :
    freeAddrs a i (P ++ ⟨s1, false⟩ :: S) =
      freeAddrs a i P ++
        ((if seg_index s1 = i then [a + sizeSum P] else []) ++
          freeAddrs (a + sizeSum P + s1) i S) := by
  rw [freeAddrs_middle]
  simp

theorem freeAddrs_middle2_alloc_free (P S : List Blk) (s1 s2 a i : Nat) :
    freeAddrs a i (P ++ ⟨s1, true⟩ :: ⟨s2, false⟩ :: S) =
      freeAddrs a i P ++
        ((if seg_index s2 = i then [a + sizeSum P + s1] else []) ++
          freeAddrs (a + sizeSum P + s1 + s2) i S) := by
  rw [freeAddrs_middle2]
  simp

/-- Reduction of `place` once the address lookup has resolved to index `k`. -/
theorem place_some {h : Heap} {a k asize : Nat}
    (hidx : idxAt 0 h.blocks a = some k) :
    place h a asize =
      (let csize := ((h.blocks[k]?).map Blk.size).getD 0
       let fl := listsRemove h.flists a
       if 2 * DSIZE ≤ csize - asize then
         { blocks := h.blocks.take k ++ ⟨asize, true⟩ :: ⟨csize - asize, false⟩ ::
             h.blocks.drop (k + 1),
           flists := listsInsert fl (a + asize) (csize - asize) }
       else { blocks := h.blocks.set k ⟨csize, true⟩, flists := fl } : Heap) := by
  unfold place
  rw [hidx]

/-- Preservation of the free-list invariant by `place`, stated over the
decomposed heap: the chosen free block is the middle block. -/
theorem place_inv {fl : Fin SEGSIZE → List Nat} {P S : List Blk} {bk : Blk}
    {asize : Nat} (hp : sizesPos (P ++ bk :: S))
    (hperm : ∀ i, (fl i).Perm (freeAddrs 0 i (P ++ bk :: S)))
    (hfree : bk.alloc = false) (hpos : 0 < asize) :
    Inv (place ⟨P ++ bk :: S, fl⟩ (sizeSum P) asize) := by
  have hpP : sizesPos P := (sizesPos_append.mp hp).1
  have hbk : 0 < bk.size := (sizesPos_cons.mp (sizesPos_append.mp hp).2).1
  have hpS : sizesPos S := (sizesPos_cons.mp (sizesPos_append.mp hp).2).2
  -- the two flanks of the decomposition and their bounds
  have hstep1 : ∀ i, (fl i).Perm
      (freeAddrs 0 i P ++ (if i = segFin bk.size then [sizeSum P] else []) ++
        freeAddrs (sizeSum P + bk.size) i S) := by
    intro i
    have hpi := hperm i
    rw [freeAddrs_middle] at hpi
    simp only [Nat.zero_add] at hpi
    rwa [if_class_eq hfree, ← List.append_assoc] at hpi
  have hF : ∀ i : Fin SEGSIZE, sizeSum P ∉ freeAddrs 0 i.val P := by
    intro i hmem
    have := lt_of_mem_freeAddrs hpP hmem
    omega
  have hG : ∀ i : Fin SEGSIZE, sizeSum P ∉ freeAddrs (sizeSum P + bk.size) i.val S := by
    intro i hmem
    have := le_of_mem_freeAddrs hmem
    omega
  have hstep2 := perm_decomp_remove hstep1 hF hG
  -- now reduce `place`
  rw [place_some (idxAt_middle hp)]
  simp only [getElem?_middle, Option.map_some', Option.getD_some]
  split_ifs with hsp
  · -- split: the remainder is at least the minimum block size
    have hD : DSIZE = 16 := rfl
    have hlt : asize < bk.size := by omega
    have hstep3 := perm_decomp_insert hstep2 (sizeSum P + asize) (bk.size - asize)
    have hRHS : ∀ i : Fin SEGSIZE,
        freeAddrs 0 i.val (P ++ ⟨asize, true⟩ :: ⟨bk.size - asize, false⟩ :: S) =
          (freeAddrs 0 i.val P ++
            (if i = segFin (bk.size - asize) then [sizeSum P + asize] else [])) ++
            freeAddrs (sizeSum P + bk.size) i.val S := by
      intro i
      rw [freeAddrs_middle2_alloc_free]
      simp only [Nat.zero_add]
      rw [show sizeSum P + asize + (bk.size - asize) = sizeSum P + bk.size
        from by omega, if_val_eq, List.append_assoc]
    constructor
    · -- positive sizes
      rw [take_middle, drop_middle]
      exact sizesPos_append.mpr ⟨hpP, sizesPos_cons.mpr ⟨hpos, sizesPos_cons.mpr
        ⟨show 0 < bk.size - asize by omega, hpS⟩⟩⟩
    · intro i
      rw [take_middle, drop_middle, hRHS i]
      exact hstep3 i
  · -- no split: allocate the whole block
    rw [show (P ++ bk :: S).set P.length ⟨bk.size, true⟩ = P ++ ⟨bk.size, true⟩ :: S
      from set_middle P S bk ⟨bk.size, true⟩]
    constructor
    · exact sizesPos_append.mpr ⟨hpP, sizesPos_cons.mpr ⟨hbk, hpS⟩⟩
    · intro i
      rw [freeAddrs_middle_alloc]
      simp only [Nat.zero_add]
      exact hstep2 i

theorem lt_length_of_getElem? {bs : List Blk} {k : Nat} {b : Blk}
    (hget : bs[k]? = some b) : k < bs.length := by
  by_contra hle
  rw [List.getElem?_eq_none (by omega)] at hget
  cases hget

theorem get_of_getElem? {bs : List Blk} {k : Nat} {b : Blk}
    (hget : bs[k]? = some b) (hk : k < bs.length) : bs.get ⟨k, hk⟩ = b := by
  rw [List.get_eq_getElem, ← Option.some.injEq, ← List.getElem?_eq_getElem hk, hget]

theorem decomp_of_getElem? {bs : List Blk} {k : Nat} {bk : Blk}
    (hget : bs[k]? = some bk) :
    bs = bs.take k ++ bk :: bs.drop (k + 1) := by
  have hk : k < bs.length := lt_length_of_getElem? hget
  have hbk := get_of_getElem? hget hk
  rw [← hbk]
  exact take_get_drop bs k hk

theorem drop_eq_cons_of_getElem? {bs : List Blk} {k : Nat} {b : Blk}
    (hget : bs[k]? = some b) : bs.drop k = b :: bs.drop (k + 1) := by
  have hk : k < bs.length := lt_length_of_getElem? hget
  rw [← List.getElem_cons_drop bs k hk]
  have : bs[k] = b := by
    rw [← Option.some.injEq, ← List.getElem?_eq_getElem hk, hget]
  rw [this]

theorem freeAddrs_middle3 (P S : List Blk) (b c d : Blk) (a i : Nat) :
    freeAddrs a i (P ++ b :: c :: d :: S) =
      freeAddrs a i P ++
        ((if b.alloc = false ∧ seg_index b.size = i then [a + sizeSum P] else []) ++
          ((if c.alloc = false ∧ seg_index c.size = i
              then [a + sizeSum P + b.size] else []) ++
            ((if d.alloc = false ∧ seg_index d.size = i
                then [a + sizeSum P + b.size + c.size] else []) ++
              freeAddrs (a + sizeSum P + b.size + c.size + d.size) i S))) := by
  rw [freeAddrs_middle]
  rfl

/-! ### Allocated-address bookkeeping -/

theorem allocAddrs_nil_of_free {M : List Blk} (hM : ∀ b ∈ M, b.alloc = false)
    (a : Nat) : allocAddrs a M = [] := by
  induction M generalizing a with
  | nil => rfl
  | cons b t ih =>
    have hb : b.alloc = false := hM b (by simp)
    have ht : ∀ c ∈ t, c.alloc = false := fun c hc => hM c (by simp [hc])
    simp [allocAddrs, hb, ih ht]

theorem allocAddrs_middle_var_free {bk : Blk} (hbk : bk.alloc = false)
    (P S : List Blk) (a : Nat) :
    allocAddrs a (P ++ bk :: S) =
      allocAddrs a P ++ allocAddrs (a + sizeSum P + bk.size) S := by
  rw [allocAddrs_middle]
  simp [hbk]

theorem allocAddrs_middle_t (P S : List Blk) (s1 a : Nat) :
    allocAddrs a (P ++ ⟨s1, true⟩ :: S) =
      allocAddrs a P ++ (a + sizeSum P) :: allocAddrs (a + sizeSum P + s1) S := by
  rw [allocAddrs_middle]
  simp

theorem allocAddrs_middle_f (P S : List Blk) (s1 a : Nat) :
    allocAddrs a (P ++ ⟨s1, false⟩ :: S) =
      allocAddrs a P ++ allocAddrs (a + sizeSum P + s1) S := by
  rw [allocAddrs_middle]
  simp

theorem allocAddrs_middle2 (P S : List Blk) (b c : Blk) (a : Nat) :
    allocAddrs a (P ++ b :: c :: S) =
      allocAddrs a P ++
        ((if b.alloc then [a + sizeSum P] else []) ++
          ((if c.alloc then [a + sizeSum P + b.size] else []) ++
            allocAddrs (a + sizeSum P + b.size + c.size) S)) := by
  rw [allocAddrs_middle]
  rfl

theorem allocAddrs_middle3 (P S : List Blk) (b c d : Blk) (a : Nat) :
    allocAddrs a (P ++ b :: c :: d :: S) =
      allocAddrs a P ++
        ((if b.alloc then [a + sizeSum P] else []) ++
          ((if c.alloc then [a + sizeSum P + b.size] else []) ++
            ((if d.alloc then [a + sizeSum P + b.size + c.size] else []) ++
              allocAddrs (a + sizeSum P + b.size + c.size + d.size) S))) := by
  rw [allocAddrs_middle]
  rfl

theorem allocAddrs_middle2_free {bk bn : Blk} (hbk : bk.alloc = false)
    (hbn : bn.alloc = false) (P S : List Blk) (a : Nat) :
    allocAddrs a (P ++ bk :: bn :: S) =
      allocAddrs a P ++ allocAddrs (a + sizeSum P + bk.size + bn.size) S := by
  rw [allocAddrs_middle2]
  simp [hbk, hbn]

theorem allocAddrs_middle3_free {bp bk bn : Blk} (hbp : bp.alloc = false)
    (hbk : bk.alloc = false) (hbn : bn.alloc = false) (P S : List Blk) (a : Nat) :
    allocAddrs a (P ++ bp :: bk :: bn :: S) =
      allocAddrs a P ++
        allocAddrs (a + sizeSum P + bp.size + bk.size + bn.size) S := by
  rw [allocAddrs_middle3]
  simp [hbp, hbk, hbn]

/-- `coalesce`, Case 1 (mm.c lines 281-283): both physical neighbours
allocated; the block is inserted as is. -/
theorem coalesce_case1 {h : Heap} {k : Nat} {bk : Blk}
    (hp : sizesPos h.blocks)
    (hperm : ∀ i : Fin SEGSIZE,
      (h.flists i).Perm ((freeAddrs 0 i.val h.blocks).erase (addrOf h.blocks k)))
    (hget : h.blocks[k]? = some bk) (hbkal : bk.alloc = false)
    (hpa : (k == 0 || ((h.blocks[k - 1]?).map Blk.alloc).getD true) = true)
    (hna : ((h.blocks[k + 1]?).map Blk.alloc).getD true = true) :
    Inv (coalesce h k).1 ∧
      (∃ P S msize, (coalesce h k).1.blocks = P ++ ⟨msize, false⟩ :: S ∧
        (coalesce h k).2 = sizeSum P) ∧
      allocAddrs 0 (coalesce h k).1.blocks = allocAddrs 0 h.blocks := by
  have hk : k < h.blocks.length := lt_length_of_getElem? hget
  have hdec := decomp_of_getElem? hget
  have hbk_eq : bk = ⟨bk.size, false⟩ := by
    obtain ⟨s, al⟩ := bk
    simp only at hbkal
    rw [hbkal]
  have hcoal : coalesce h k =
      ({ blocks := h.blocks,
         flists := listsInsert h.flists (addrOf h.blocks k) bk.size },
        addrOf h.blocks k) := by
    simp only [coalesce, hget, hpa, hna, Bool.and_self, if_true]
  have hpP : sizesPos (h.blocks.take k) := sizesPos_take hp k
  have hbkpos : 0 < bk.size := by
    refine hp bk ?_
    rw [hdec]
    simp
  have hFi : ∀ i : Fin SEGSIZE,
      sizeSum (h.blocks.take k) ∉ freeAddrs 0 i.val (h.blocks.take k) := by
    intro i hmem
    have := lt_of_mem_freeAddrs hpP hmem
    omega
  have hGi : ∀ i : Fin SEGSIZE, sizeSum (h.blocks.take k) ∉
      freeAddrs (sizeSum (h.blocks.take k) + bk.size) i.val (h.blocks.drop (k + 1)) := by
    intro i hmem
    have := le_of_mem_freeAddrs hmem
    omega
  have hstep0 : ∀ i : Fin SEGSIZE, (h.flists i).Perm
      (freeAddrs 0 i.val (h.blocks.take k) ++
        freeAddrs (sizeSum (h.blocks.take k) + bk.size) i.val
          (h.blocks.drop (k + 1))) := by
    intro i
    have hpi := hperm i
    rw [show freeAddrs 0 i.val h.blocks =
        freeAddrs 0 i.val (h.blocks.take k ++ bk :: h.blocks.drop (k + 1)) from by
          rw [← hdec]] at hpi
    rw [freeAddrs_middle] at hpi
    simp only [Nat.zero_add] at hpi
    rw [if_class_eq hbkal, ← List.append_assoc,
      show addrOf h.blocks k = sizeSum (h.blocks.take k) from rfl,
      erase_opt_middle _ _ _ _ (hFi i) (hGi i)] at hpi
    exact hpi
  have hstep1 := perm_decomp_insert hstep0 (sizeSum (h.blocks.take k)) bk.size
  rw [hcoal]
  refine ⟨⟨hp, ?_⟩, ⟨h.blocks.take k, h.blocks.drop (k + 1), bk.size, ?_, rfl⟩, rfl⟩
  · intro i
    have hgoal : freeAddrs 0 i.val h.blocks =
        (freeAddrs 0 i.val (h.blocks.take k) ++
          (if i = segFin bk.size then [sizeSum (h.blocks.take k)] else [])) ++
          freeAddrs (sizeSum (h.blocks.take k) + bk.size) i.val
            (h.blocks.drop (k + 1)) := by
      conv_lhs => rw [hdec]
      rw [freeAddrs_middle]
      simp only [Nat.zero_add]
      rw [if_class_eq hbkal, ← List.append_assoc]
    rw [hgoal]
    exact hstep1 i
  · conv_lhs => rw [hdec]
    rw [← hbk_eq]

/-- `coalesce`, Case 2 (mm.c lines 284-291): successor free, predecessor
allocated; absorb the successor. -/
theorem coalesce_case2 {h : Heap} {k : Nat} {bk bn : Blk}
    (hp : sizesPos h.blocks)
    (hperm : ∀ i : Fin SEGSIZE,
      (h.flists i).Perm ((freeAddrs 0 i.val h.blocks).erase (addrOf h.blocks k)))
    (hget : h.blocks[k]? = some bk) (hbkal : bk.alloc = false)
    (hpa : (k == 0 || ((h.blocks[k - 1]?).map Blk.alloc).getD true) = true)
    (hgetn : h.blocks[k + 1]? = some bn) (hbnal : bn.alloc = false) :
    Inv (coalesce h k).1 ∧
      (∃ P S msize, (coalesce h k).1.blocks = P ++ ⟨msize, false⟩ :: S ∧
        (coalesce h k).2 = sizeSum P) ∧
      allocAddrs 0 (coalesce h k).1.blocks = allocAddrs 0 h.blocks := by
  have hk : k < h.blocks.length := lt_length_of_getElem? hget
  have hdec1 := decomp_of_getElem? hget
  have hdropn := drop_eq_cons_of_getElem? hgetn
  have hdec2 : h.blocks = h.blocks.take k ++ bk :: bn :: h.blocks.drop (k + 2) := by
    rw [← hdropn]
    exact hdec1
  have hbkpos : 0 < bk.size := by
    refine hp bk ?_
    rw [hdec2]; simp
  have hbnpos : 0 < bn.size := by
    refine hp bn ?_
    rw [hdec2]; simp
  have hpP : sizesPos (h.blocks.take k) := sizesPos_take hp k
  have hcoal : coalesce h k =
      ({ blocks := h.blocks.take k ++ ⟨bk.size + bn.size, false⟩ ::
           h.blocks.drop (k + 2),
         flists := listsInsert (listsRemove h.flists (addrOf h.blocks (k + 1)))
           (addrOf h.blocks k) (bk.size + bn.size) },
        addrOf h.blocks k) := by
    simp only [coalesce, hget, hgetn, hpa, hbnal, Option.map_some', Option.getD_some,
      Bool.and_false, Bool.not_false, Bool.and_true, if_true, Bool.false_eq_true,
      if_false]
  have haddr1 : addrOf h.blocks (k + 1) = sizeSum (h.blocks.take k) + bk.size := by
    rw [addrOf_succ h.blocks k hk, get_of_getElem? hget hk]
    rfl
  -- flank bounds
  have hFi : ∀ i : Fin SEGSIZE, ∀ x, x ∈ freeAddrs 0 i.val (h.blocks.take k) →
      x < sizeSum (h.blocks.take k) := by
    intro i x hx
    have := lt_of_mem_freeAddrs hpP hx
    omega
  have hGi : ∀ i : Fin SEGSIZE, ∀ x, x ∈ freeAddrs
      (sizeSum (h.blocks.take k) + bk.size + bn.size) i.val (h.blocks.drop (k + 2)) →
      sizeSum (h.blocks.take k) + bk.size + bn.size ≤ x :=
    fun _ _ hx => le_of_mem_freeAddrs hx
  have hAnotF : ∀ i : Fin SEGSIZE,
      sizeSum (h.blocks.take k) ∉ freeAddrs 0 i.val (h.blocks.take k) := by
    intro i hmem
    have := hFi i _ hmem
    omega
  have hAnotTail : ∀ i : Fin SEGSIZE, sizeSum (h.blocks.take k) ∉
      ((if i = segFin bn.size then [sizeSum (h.blocks.take k) + bk.size] else []) ++
        freeAddrs (sizeSum (h.blocks.take k) + bk.size + bn.size) i.val
          (h.blocks.drop (k + 2))) := by
    intro i hmem
    rcases List.mem_append.mp hmem with hm | hm
    · by_cases hc : i = segFin bn.size
      · rw [if_pos hc] at hm
        simp only [List.mem_singleton] at hm
        omega
      · rw [if_neg hc] at hm
        cases hm
    · have := hGi i _ hm
      omega
  have hstep0 : ∀ i : Fin SEGSIZE, (h.flists i).Perm
      (freeAddrs 0 i.val (h.blocks.take k) ++
        ((if i = segFin bn.size then [sizeSum (h.blocks.take k) + bk.size] else []) ++
          freeAddrs (sizeSum (h.blocks.take k) + bk.size + bn.size) i.val
            (h.blocks.drop (k + 2)))) := by
    intro i
    have hpi := hperm i
    rw [show freeAddrs 0 i.val h.blocks = freeAddrs 0 i.val
        (h.blocks.take k ++ bk :: bn :: h.blocks.drop (k + 2)) from by rw [← hdec2]]
      at hpi
    rw [freeAddrs_middle2] at hpi
    simp only [Nat.zero_add] at hpi
    rw [if_class_eq hbkal, if_class_eq hbnal, ← List.append_assoc,
      show addrOf h.blocks k = sizeSum (h.blocks.take k) from rfl,
      erase_opt_middle _ _ _ _ (hAnotF i) (hAnotTail i)] at hpi
    exact hpi
  have hstep0' : ∀ i : Fin SEGSIZE, (h.flists i).Perm
      ((freeAddrs 0 i.val (h.blocks.take k) ++
        (if i = segFin bn.size then [sizeSum (h.blocks.take k) + bk.size] else [])) ++
          freeAddrs (sizeSum (h.blocks.take k) + bk.size + bn.size) i.val
            (h.blocks.drop (k + 2))) := by
    intro i
    rw [List.append_assoc]
    exact hstep0 i
  have hremF : ∀ i : Fin SEGSIZE, sizeSum (h.blocks.take k) + bk.size ∉
      freeAddrs 0 i.val (h.blocks.take k) := by
    intro i hmem
    have := hFi i _ hmem
    omega
  have hremG : ∀ i : Fin SEGSIZE, sizeSum (h.blocks.take k) + bk.size ∉
      freeAddrs (sizeSum (h.blocks.take k) + bk.size + bn.size) i.val
        (h.blocks.drop (k + 2)) := by
    intro i hmem
    have := hGi i _ hmem
    omega
  have hstep1 := perm_decomp_remove hstep0' hremF hremG
  have hstep2 := perm_decomp_insert hstep1 (sizeSum (h.blocks.take k))
    (bk.size + bn.size)
  rw [hcoal, haddr1]
  refine ⟨⟨?_, ?_⟩, ⟨h.blocks.take k, h.blocks.drop (k + 2), bk.size + bn.size,
    rfl, rfl⟩, ?_⟩
  · refine sizesPos_append.mpr ⟨hpP, sizesPos_cons.mpr ⟨?_, sizesPos_drop hp (k + 2)⟩⟩
    show 0 < bk.size + bn.size
    omega
  · intro i
    have hgoal : freeAddrs 0 i.val
        (h.blocks.take k ++ ⟨bk.size + bn.size, false⟩ :: h.blocks.drop (k + 2)) =
        (freeAddrs 0 i.val (h.blocks.take k) ++
          (if i = segFin (bk.size + bn.size) then [sizeSum (h.blocks.take k)] else [])) ++
          freeAddrs (sizeSum (h.blocks.take k) + bk.size + bn.size) i.val
            (h.blocks.drop (k + 2)) := by
      rw [freeAddrs_middle_free]
      simp only [Nat.zero_add]
      rw [if_val_eq, List.append_assoc,
        show sizeSum (h.blocks.take k) + (bk.size + bn.size) =
          sizeSum (h.blocks.take k) + bk.size + bn.size from by omega]
    rw [hgoal]
    exact hstep2 i
  · rw [allocAddrs_middle_f]
    conv_rhs => rw [hdec2]
    rw [allocAddrs_middle2_free hbkal hbnal]
    simp only [Nat.zero_add]
    rw [show sizeSum (h.blocks.take k) + (bk.size + bn.size) =
      sizeSum (h.blocks.take k) + bk.size + bn.size from by omega]

/-- `coalesce`, Case 3 (mm.c lines 292-300): predecessor free, successor
allocated; the merged block is anchored at the predecessor's address. -/
theorem coalesce_case3 {h : Heap} {j : Nat} {bk bp : Blk}
    (hp : sizesPos h.blocks)
    (hperm : ∀ i : Fin SEGSIZE,
      (h.flists i).Perm
        ((freeAddrs 0 i.val h.blocks).erase (addrOf h.blocks (j + 1))))
    (hget : h.blocks[j + 1]? = some bk) (hbkal : bk.alloc = false)
    (hgetp : h.blocks[j]? = some bp) (hbpal : bp.alloc = false)
    (hna : ((h.blocks[j + 2]?).map Blk.alloc).getD true = true) :
    Inv (coalesce h (j + 1)).1 ∧
      (∃ P S msize, (coalesce h (j + 1)).1.blocks = P ++ ⟨msize, false⟩ :: S ∧
        (coalesce h (j + 1)).2 = sizeSum P) ∧
      allocAddrs 0 (coalesce h (j + 1)).1.blocks = allocAddrs 0 h.blocks := by
  have hj : j < h.blocks.length := lt_length_of_getElem? hgetp
  have hdec1 := decomp_of_getElem? hgetp
  have hdropk := drop_eq_cons_of_getElem? hget
  have hdec2 : h.blocks = h.blocks.take j ++ bp :: bk :: h.blocks.drop (j + 2) := by
    rw [← hdropk]
    exact hdec1
  have hbkpos : 0 < bk.size := by
    refine hp bk ?_
    rw [hdec2]; simp
  have hbppos : 0 < bp.size := by
    refine hp bp ?_
    rw [hdec2]; simp
  have hpP : sizesPos (h.blocks.take j) := sizesPos_take hp j
  have hcoal : coalesce h (j + 1) =
      ({ blocks := h.blocks.take j ++ ⟨bk.size + bp.size, false⟩ ::
           h.blocks.drop (j + 2),
         flists := listsInsert (listsRemove h.flists (addrOf h.blocks j))
           (addrOf h.blocks j) (bk.size + bp.size) },
        addrOf h.blocks j) := by
    have hk0 : ((j + 1 : Nat) == 0) = false := by simp
    have hidx2 : j + 1 + 1 = j + 2 := rfl
    simp only [coalesce, hget, hgetp, hbpal, hidx2, hna, hk0, Option.map_some',
      Option.getD_some, Nat.add_sub_cancel, Bool.false_or, Bool.and_true,
      Bool.not_true, Bool.and_false, Bool.false_and, Bool.not_false, Bool.true_and,
      if_true, Bool.false_eq_true, if_false]
  have haddr1 : addrOf h.blocks (j + 1) = sizeSum (h.blocks.take j) + bp.size := by
    rw [addrOf_succ h.blocks j hj, get_of_getElem? hgetp hj]
    rfl
  have hFi : ∀ i : Fin SEGSIZE, ∀ x, x ∈ freeAddrs 0 i.val (h.blocks.take j) →
      x < sizeSum (h.blocks.take j) := by
    intro i x hx
    have := lt_of_mem_freeAddrs hpP hx
    omega
  have hGi : ∀ i : Fin SEGSIZE, ∀ x, x ∈ freeAddrs
      (sizeSum (h.blocks.take j) + bp.size + bk.size) i.val (h.blocks.drop (j + 2)) →
      sizeSum (h.blocks.take j) + bp.size + bk.size ≤ x :=
    fun _ _ hx => le_of_mem_freeAddrs hx
  have hKnotFP : ∀ i : Fin SEGSIZE, sizeSum (h.blocks.take j) + bp.size ∉
      (freeAddrs 0 i.val (h.blocks.take j) ++
        (if i = segFin bp.size then [sizeSum (h.blocks.take j)] else [])) := by
    intro i hmem
    rcases List.mem_append.mp hmem with hm | hm
    · have := hFi i _ hm
      omega
    · by_cases hc : i = segFin bp.size
      · rw [if_pos hc] at hm
        simp only [List.mem_singleton] at hm
        omega
      · rw [if_neg hc] at hm
        cases hm
  have hKnotG : ∀ i : Fin SEGSIZE, sizeSum (h.blocks.take j) + bp.size ∉
      freeAddrs (sizeSum (h.blocks.take j) + bp.size + bk.size) i.val
        (h.blocks.drop (j + 2)) := by
    intro i hmem
    have := hGi i _ hmem
    omega
  have hstep0 : ∀ i : Fin SEGSIZE, (h.flists i).Perm
      ((freeAddrs 0 i.val (h.blocks.take j) ++
        (if i = segFin bp.size then [sizeSum (h.blocks.take j)] else [])) ++
          freeAddrs (sizeSum (h.blocks.take j) + bp.size + bk.size) i.val
            (h.blocks.drop (j + 2))) := by
    intro i
    have hpi := hperm i
    rw [show freeAddrs 0 i.val h.blocks = freeAddrs 0 i.val
        (h.blocks.take j ++ bp :: bk :: h.blocks.drop (j + 2)) from by rw [← hdec2]]
      at hpi
    rw [freeAddrs_middle2] at hpi
    simp only [Nat.zero_add] at hpi
    rw [if_class_eq hbpal, if_class_eq hbkal, ← List.append_assoc,
      ← List.append_assoc, haddr1,
      erase_opt_middle _ _ _ _ (hKnotFP i) (hKnotG i)] at hpi
    exact hpi
  have hremF : ∀ i : Fin SEGSIZE, sizeSum (h.blocks.take j) ∉
      freeAddrs 0 i.val (h.blocks.take j) := by
    intro i hmem
    have := hFi i _ hmem
    omega
  have hremG : ∀ i : Fin SEGSIZE, sizeSum (h.blocks.take j) ∉
      freeAddrs (sizeSum (h.blocks.take j) + bp.size + bk.size) i.val
        (h.blocks.drop (j + 2)) := by
    intro i hmem
    have := hGi i _ hmem
    omega
  have hstep1 := perm_decomp_remove hstep0 hremF hremG
  have hstep2 := perm_decomp_insert hstep1 (sizeSum (h.blocks.take j))
    (bk.size + bp.size)
  rw [hcoal]
  refine ⟨⟨?_, ?_⟩, ⟨h.blocks.take j, h.blocks.drop (j + 2), bk.size + bp.size,
    rfl, rfl⟩, ?_⟩
  · refine sizesPos_append.mpr ⟨hpP, sizesPos_cons.mpr ⟨?_, sizesPos_drop hp (j + 2)⟩⟩
    show 0 < bk.size + bp.size
    omega
  · intro i
    have hgoal : freeAddrs 0 i.val
        (h.blocks.take j ++ ⟨bk.size + bp.size, false⟩ :: h.blocks.drop (j + 2)) =
        (freeAddrs 0 i.val (h.blocks.take j) ++
          (if i = segFin (bk.size + bp.size) then [sizeSum (h.blocks.take j)]
            else [])) ++
          freeAddrs (sizeSum (h.blocks.take j) + bp.size + bk.size) i.val
            (h.blocks.drop (j + 2)) := by
      rw [freeAddrs_middle_free]
      simp only [Nat.zero_add]
      rw [if_val_eq, List.append_assoc,
        show sizeSum (h.blocks.take j) + (bk.size + bp.size) =
          sizeSum (h.blocks.take j) + bp.size + bk.size from by omega]
    rw [hgoal]
    exact hstep2 i
  · rw [allocAddrs_middle_f]
    conv_rhs => rw [hdec2]
    rw [allocAddrs_middle2_free hbpal hbkal]
    simp only [Nat.zero_add]
    rw [show sizeSum (h.blocks.take j) + (bk.size + bp.size) =
      sizeSum (h.blocks.take j) + bp.size + bk.size from by omega]

/-- `coalesce`, Case 4 (mm.c lines 301-312): both neighbours free; all three
blocks merge, anchored at the predecessor's address. -/
theorem coalesce_case4 {h : Heap} {j : Nat} {bk bp bn : Blk}
    (hp : sizesPos h.blocks)
    (hperm : ∀ i : Fin SEGSIZE,
      (h.flists i).Perm
        ((freeAddrs 0 i.val h.blocks).erase (addrOf h.blocks (j + 1))))
    (hget : h.blocks[j + 1]? = some bk) (hbkal : bk.alloc = false)
    (hgetp : h.blocks[j]? = some bp) (hbpal : bp.alloc = false)
    (hgetn : h.blocks[j + 2]? = some bn) (hbnal : bn.alloc = false) :
    Inv (coalesce h (j + 1)).1 ∧
      (∃ P S msize, (coalesce h (j + 1)).1.blocks = P ++ ⟨msize, false⟩ :: S ∧
        (coalesce h (j + 1)).2 = sizeSum P) ∧
      allocAddrs 0 (coalesce h (j + 1)).1.blocks = allocAddrs 0 h.blocks := by
  have hj : j < h.blocks.length := lt_length_of_getElem? hgetp
  have hj1 : j + 1 < h.blocks.length := lt_length_of_getElem? hget
  have hdec1 := decomp_of_getElem? hgetp
  have hdropk := drop_eq_cons_of_getElem? hget
  have hdropn := drop_eq_cons_of_getElem? hgetn
  have hdec3 : h.blocks =
      h.blocks.take j ++ bp :: bk :: bn :: h.blocks.drop (j + 3) := by
    rw [← show (j + 2) + 1 = j + 3 from rfl, ← hdropn, ← hdropk]
    exact hdec1
  have hbkpos : 0 < bk.size := by
    refine hp bk ?_
    rw [hdec3]; simp
  have hbppos : 0 < bp.size := by
    refine hp bp ?_
    rw [hdec3]; simp
  have hbnpos : 0 < bn.size := by
    refine hp bn ?_
    rw [hdec3]; simp
  have hpP : sizesPos (h.blocks.take j) := sizesPos_take hp j
  have hcoal : coalesce h (j + 1) =
      ({ blocks := h.blocks.take j ++ ⟨bk.size + bp.size + bn.size, false⟩ ::
           h.blocks.drop (j + 3),
         flists := listsInsert
           (listsRemove (listsRemove h.flists (addrOf h.blocks j))
             (addrOf h.blocks (j + 2)))
           (addrOf h.blocks j) (bk.size + bp.size + bn.size) },
        addrOf h.blocks j) := by
    have hk0 : ((j + 1 : Nat) == 0) = false := by simp
    have hidx2 : j + 1 + 1 = j + 2 := rfl
    have hidx3 : j + 1 + 2 = j + 3 := rfl
    simp only [coalesce, hget, hgetp, hbpal, hgetn, hbnal, hidx2, hidx3, hk0,
      Option.map_some', Option.getD_some, Nat.add_sub_cancel, Bool.false_or,
      Bool.and_true, Bool.not_true, Bool.and_false, Bool.false_and, Bool.not_false,
      Bool.true_and, if_true, Bool.false_eq_true, if_false]
  have haddr1 : addrOf h.blocks (j + 1) = sizeSum (h.blocks.take j) + bp.size := by
    rw [addrOf_succ h.blocks j hj, get_of_getElem? hgetp hj]
    rfl
  have haddr2 : addrOf h.blocks (j + 2) =
      sizeSum (h.blocks.take j) + bp.size + bk.size := by
    rw [show (j + 2 : Nat) = (j + 1) + 1 from rfl,
      addrOf_succ h.blocks (j + 1) hj1, get_of_getElem? hget hj1, haddr1]
  have hFi : ∀ i : Fin SEGSIZE, ∀ x, x ∈ freeAddrs 0 i.val (h.blocks.take j) →
      x < sizeSum (h.blocks.take j) := by
    intro i x hx
    have := lt_of_mem_freeAddrs hpP hx
    omega
  have hGi : ∀ i : Fin SEGSIZE, ∀ x, x ∈ freeAddrs
      (sizeSum (h.blocks.take j) + bp.size + bk.size + bn.size) i.val
        (h.blocks.drop (j + 3)) →
      sizeSum (h.blocks.take j) + bp.size + bk.size + bn.size ≤ x :=
    fun _ _ hx => le_of_mem_freeAddrs hx
  -- erase the newly freed middle block
  have hKnotFP : ∀ i : Fin SEGSIZE, sizeSum (h.blocks.take j) + bp.size ∉
      (freeAddrs 0 i.val (h.blocks.take j) ++
        (if i = segFin bp.size then [sizeSum (h.blocks.take j)] else [])) := by
    intro i hmem
    rcases List.mem_append.mp hmem with hm | hm
    · have := hFi i _ hm
      omega
    · by_cases hc : i = segFin bp.size
      · rw [if_pos hc] at hm
        simp only [List.mem_singleton] at hm
        omega
      · rw [if_neg hc] at hm
        cases hm
  have hKnotNG : ∀ i : Fin SEGSIZE, sizeSum (h.blocks.take j) + bp.size ∉
      ((if i = segFin bn.size
          then [sizeSum (h.blocks.take j) + bp.size + bk.size] else []) ++
        freeAddrs (sizeSum (h.blocks.take j) + bp.size + bk.size + bn.size) i.val
          (h.blocks.drop (j + 3))) := by
    intro i hmem
    rcases List.mem_append.mp hmem with hm | hm
    · by_cases hc : i = segFin bn.size
      · rw [if_pos hc] at hm
        simp only [List.mem_singleton] at hm
        omega
      · rw [if_neg hc] at hm
        cases hm
    · have := hGi i _ hm
      omega
  have hstep0 : ∀ i : Fin SEGSIZE, (h.flists i).Perm
      ((freeAddrs 0 i.val (h.blocks.take j) ++
        (if i = segFin bp.size then [sizeSum (h.blocks.take j)] else [])) ++
          ((if i = segFin bn.size
              then [sizeSum (h.blocks.take j) + bp.size + bk.size] else []) ++
            freeAddrs (sizeSum (h.blocks.take j) + bp.size + bk.size + bn.size) i.val
              (h.blocks.drop (j + 3)))) := by
    intro i
    have hpi := hperm i
    rw [show freeAddrs 0 i.val h.blocks = freeAddrs 0 i.val
        (h.blocks.take j ++ bp :: bk :: bn :: h.blocks.drop (j + 3)) from by
          rw [← hdec3]] at hpi
    rw [freeAddrs_middle3] at hpi
    simp only [Nat.zero_add] at hpi
    rw [if_class_eq hbpal, if_class_eq hbkal, if_class_eq hbnal,
      ← List.append_assoc, ← List.append_assoc, haddr1,
      erase_opt_middle _ _ _ _ (hKnotFP i) (hKnotNG i)] at hpi
    exact hpi
  -- remove the predecessor's address
  have hremF1 : ∀ i : Fin SEGSIZE, sizeSum (h.blocks.take j) ∉
      freeAddrs 0 i.val (h.blocks.take j) := by
    intro i hmem
    have := hFi i _ hmem
    omega
  have hremG1 : ∀ i : Fin SEGSIZE, sizeSum (h.blocks.take j) ∉
      ((if i = segFin bn.size
          then [sizeSum (h.blocks.take j) + bp.size + bk.size] else []) ++
        freeAddrs (sizeSum (h.blocks.take j) + bp.size + bk.size + bn.size) i.val
          (h.blocks.drop (j + 3))) := by
    intro i hmem
    rcases List.mem_append.mp hmem with hm | hm
    · by_cases hc : i = segFin bn.size
      · rw [if_pos hc] at hm
        simp only [List.mem_singleton] at hm
        omega
      · rw [if_neg hc] at hm
        cases hm
    · have := hGi i _ hm
      omega
  have hstep1 := perm_decomp_remove hstep0 hremF1 hremG1
  -- remove the successor's address
  have hstep1' : ∀ i : Fin SEGSIZE, ((listsRemove h.flists
      (sizeSum (h.blocks.take j))) i).Perm
      ((freeAddrs 0 i.val (h.blocks.take j) ++
        (if i = segFin bn.size
          then [sizeSum (h.blocks.take j) + bp.size + bk.size] else [])) ++
        freeAddrs (sizeSum (h.blocks.take j) + bp.size + bk.size + bn.size) i.val
          (h.blocks.drop (j + 3))) := by
    intro i
    rw [List.append_assoc]
    exact hstep1 i
  have hremF2 : ∀ i : Fin SEGSIZE,
      sizeSum (h.blocks.take j) + bp.size + bk.size ∉
      freeAddrs 0 i.val (h.blocks.take j) := by
    intro i hmem
    have := hFi i _ hmem
    omega
  have hremG2 : ∀ i : Fin SEGSIZE,
      sizeSum (h.blocks.take j) + bp.size + bk.size ∉
      freeAddrs (sizeSum (h.blocks.take j) + bp.size + bk.size + bn.size) i.val
        (h.blocks.drop (j + 3)) := by
    intro i hmem
    have := hGi i _ hmem
    omega
  have hstep2 := perm_decomp_remove hstep1' hremF2 hremG2
  have hstep3 := perm_decomp_insert hstep2 (sizeSum (h.blocks.take j))
    (bk.size + bp.size + bn.size)
  rw [hcoal, haddr2]
  refine ⟨⟨?_, ?_⟩, ⟨h.blocks.take j, h.blocks.drop (j + 3),
    bk.size + bp.size + bn.size, rfl, rfl⟩, ?_⟩
  · refine sizesPos_append.mpr ⟨hpP, sizesPos_cons.mpr ⟨?_, sizesPos_drop hp (j + 3)⟩⟩
    show 0 < bk.size + bp.size + bn.size
    omega
  · intro i
    have hgoal : freeAddrs 0 i.val
        (h.blocks.take j ++ ⟨bk.size + bp.size + bn.size, false⟩ ::
          h.blocks.drop (j + 3)) =
        (freeAddrs 0 i.val (h.blocks.take j) ++
          (if i = segFin (bk.size + bp.size + bn.size)
            then [sizeSum (h.blocks.take j)] else [])) ++
          freeAddrs (sizeSum (h.blocks.take j) + bp.size + bk.size + bn.size) i.val
            (h.blocks.drop (j + 3)) := by
      rw [freeAddrs_middle_free]
      simp only [Nat.zero_add]
      rw [if_val_eq, List.append_assoc,
        show sizeSum (h.blocks.take j) + (bk.size + bp.size + bn.size) =
          sizeSum (h.blocks.take j) + bp.size + bk.size + bn.size from by omega]
    rw [hgoal]
    exact hstep3 i
  · rw [allocAddrs_middle_f]
    conv_rhs => rw [hdec3]
    rw [allocAddrs_middle3_free hbpal hbkal hbnal]
    simp only [Nat.zero_add]
    rw [show sizeSum (h.blocks.take j) + (bk.size + bp.size + bn.size) =
      sizeSum (h.blocks.take j) + bp.size + bk.size + bn.size from by omega]

/-- `coalesce` on a `PreCoal` state restores the invariant and returns the
address of a free block of the new heap (the merged block). -/
theorem coalesce_spec {h : Heap} {k : Nat} (hpre : PreCoal h k) :
    Inv (coalesce h k).1 ∧
      (∃ P S msize, (coalesce h k).1.blocks = P ++ ⟨msize, false⟩ :: S ∧
        (coalesce h k).2 = sizeSum P) ∧
      allocAddrs 0 (coalesce h k).1.blocks = allocAddrs 0 h.blocks := by
  obtain ⟨hp, hk, hal, hperm⟩ := hpre
  obtain ⟨bk, hget, hbkal⟩ : ∃ bk, h.blocks[k]? = some bk ∧ bk.alloc = false := by
    rcases ho : h.blocks[k]? with _ | bk
    · rw [ho] at hal
      cases hal
    · rw [ho] at hal
      simp only [Option.map_some', Option.some.injEq] at hal
      exact ⟨bk, rfl, hal⟩
  have hpaCases :
      ((k == 0 || ((h.blocks[k - 1]?).map Blk.alloc).getD true) = true) ∨
      ∃ j bp, k = j + 1 ∧ h.blocks[j]? = some bp ∧ bp.alloc = false := by
    by_cases hk0 : k = 0
    · subst hk0
      left
      rfl
    · obtain ⟨j, rfl⟩ : ∃ j, k = j + 1 := ⟨k - 1, by omega⟩
      rcases hpo : h.blocks[j]? with _ | bp
      · have hjlt : j < h.blocks.length := by omega
        rw [List.getElem?_eq_getElem hjlt] at hpo
        cases hpo
      · by_cases hbp : bp.alloc
        · left
          simp [hpo, hbp]
        · right
          exact ⟨j, bp, rfl, hpo, by simpa using hbp⟩
  have hnaCases : (((h.blocks[k + 1]?).map Blk.alloc).getD true = true) ∨
      ∃ bn, h.blocks[k + 1]? = some bn ∧ bn.alloc = false := by
    rcases hno : h.blocks[k + 1]? with _ | bn
    · left
      simp [hno]
    · by_cases hbn : bn.alloc
      · left
        simp [hno, hbn]
      · right
        exact ⟨bn, rfl, by simpa using hbn⟩
  rcases hpaCases with hpa | ⟨j, bp, rfl, hgetp, hbpal⟩
  · rcases hnaCases with hna | ⟨bn, hgetn, hbnal⟩
    · exact coalesce_case1 hp hperm hget hbkal hpa hna
    · exact coalesce_case2 hp hperm hget hbkal hpa hgetn hbnal
  · rcases hnaCases with hna | ⟨bn, hgetn, hbnal⟩
    · exact coalesce_case3 hp hperm hget hbkal hgetp hbpal hna
    · exact coalesce_case4 hp hperm hget hbkal hgetp hbpal hgetn hbnal

theorem set_middle' {P S : List Blk} {m : Blk} {k : Nat} (hk : P.length = k)
    (v : Blk) : (P ++ m :: S).set k v = P ++ v :: S := by
  subst hk
  exact set_middle P S m v

theorem getElem?_middle' {P S : List Blk} {m : Blk} {k : Nat} (hk : P.length = k) :
    (P ++ m :: S)[k]? = some m := by
  subst hk
  exact getElem?_middle P S m

theorem addrOf_middle' {P S : List Blk} {m : Blk} {k : Nat} (hk : P.length = k) :
    addrOf (P ++ m :: S) k = sizeSum P := by
  subst hk
  exact addrOf_middle P S m

theorem idxAt_middle' {P S : List Blk} {m : Blk} {k : Nat}
    (hp : sizesPos (P ++ m :: S)) (hk : P.length = k) :
    idxAt 0 (P ++ m :: S) (sizeSum P) = some k := by
  subst hk
  exact idxAt_middle hp

/-- The header/footer writes of `mm_free` take an `Inv` state with block `k`
allocated to the state `coalesce` requires. -/
theorem markFree_preCoal {h : Heap} {k : Nat} {b : Blk} (hInv : Inv h)
    (hget : h.blocks[k]? = some b) (hal : b.alloc = true) :
    PreCoal { h with blocks := markFree h.blocks k } k := by
  obtain ⟨hp, hperm⟩ := hInv
  have hk : k < h.blocks.length := lt_length_of_getElem? hget
  have hdec := decomp_of_getElem? hget
  have hPlen : (h.blocks.take k).length = k := by
    simp [List.length_take]
    omega
  have hmf : markFree h.blocks k =
      h.blocks.take k ++ ⟨b.size, false⟩ :: h.blocks.drop (k + 1) := by
    unfold markFree
    rw [hget]
    conv_lhs => rw [hdec]
    exact set_middle' hPlen ⟨b.size, false⟩
  have hbpos : 0 < b.size := by
    refine hp b ?_
    rw [hdec]; simp
  have hpP := sizesPos_take hp k
  have hpS := sizesPos_drop hp (k + 1)
  have hAnotF : ∀ i : Fin SEGSIZE,
      sizeSum (h.blocks.take k) ∉ freeAddrs 0 i.val (h.blocks.take k) := by
    intro i hmem
    have := lt_of_mem_freeAddrs hpP hmem
    omega
  have hAnotG : ∀ i : Fin SEGSIZE, sizeSum (h.blocks.take k) ∉
      freeAddrs (sizeSum (h.blocks.take k) + b.size) i.val
        (h.blocks.drop (k + 1)) := by
    intro i hmem
    have := le_of_mem_freeAddrs hmem
    omega
  refine ⟨?_, ?_, ?_, ?_⟩
  · show sizesPos (markFree h.blocks k)
    rw [hmf]
    exact sizesPos_append.mpr ⟨hpP, sizesPos_cons.mpr ⟨hbpos, hpS⟩⟩
  · show k < (markFree h.blocks k).length
    rw [hmf, length_middle]
    omega
  · show ((markFree h.blocks k)[k]?).map Blk.alloc = some false
    rw [hmf, getElem?_middle' hPlen]
    rfl
  · intro i
    show (h.flists i).Perm
      ((freeAddrs 0 i.val (markFree h.blocks k)).erase (addrOf (markFree h.blocks k) k))
    rw [hmf, addrOf_middle' hPlen, freeAddrs_middle_free]
    simp only [Nat.zero_add]
    rw [← List.append_assoc, erase_opt_middle _ _ _ _ (hAnotF i) (hAnotG i)]
    have hpi := hperm i
    rw [show freeAddrs 0 i.val h.blocks = freeAddrs 0 i.val
        (h.blocks.take k ++ b :: h.blocks.drop (k + 1)) from by rw [← hdec],
      freeAddrs_middle] at hpi
    simp only [Nat.zero_add] at hpi
    have hcond : ¬(b.alloc = false ∧ seg_index b.size = i.val) := by
      intro hcon
      have hc := hcon.1
      rw [hal] at hc
      cases hc
    rw [if_neg hcond, List.nil_append] at hpi
    exact hpi

/-- Reduction of `mm_free` once the address lookup has resolved. -/
theorem mm_free_some {h : Heap} {x k : Nat} (hidx : idxAt 0 h.blocks x = some k) :
    mm_free h (some x) = (coalesce { h with blocks := markFree h.blocks k } k).1 := by
  simp only [mm_free]
  rw [hidx]

theorem AllocAt_elim {h : Heap} {x : Nat} (hp : sizesPos h.blocks)
    (hx : AllocAt h x) :
    ∃ k b, h.blocks[k]? = some b ∧ b.alloc = true ∧ x = addrOf h.blocks k ∧
      idxAt 0 h.blocks x = some k := by
  obtain ⟨k, hk, hxk, hal⟩ := (mem_allocAddrs_iff hp 0 x).mp hx
  refine ⟨k, h.blocks.get ⟨k, hk⟩, ?_, hal, by simpa using hxk, ?_⟩
  · rw [List.getElem?_eq_getElem hk, List.get_eq_getElem]
  · rw [hxk]
    exact idxAt_addrOf hp 0 k hk

/-- `mm_free` on the address of an allocated block preserves the free-list
invariant. -/
theorem free_inv {h : Heap} {x : Nat} (hInv : Inv h) (hx : AllocAt h x) :
    Inv (mm_free h (some x)) := by
  obtain ⟨k, b, hget, hal, hxaddr, hidx⟩ := AllocAt_elim hInv.1 hx
  rw [mm_free_some hidx]
  exact (coalesce_spec (markFree_preCoal hInv hget hal)).1

theorem get_middle' {P S : List Blk} {m : Blk} {k : Nat} (hPlen : P.length = k)
    (hk : k < (P ++ m :: S).length) : (P ++ m :: S).get ⟨k, hk⟩ = m := by
  rw [List.get_eq_getElem, ← Option.some.injEq, ← List.getElem?_eq_getElem hk,
    getElem?_middle' hPlen]

theorem blockAt_addrOf {h : Heap} (hp : sizesPos h.blocks) {k : Nat}
    (hk : k < h.blocks.length) :
    blockAt h (addrOf h.blocks k) = some (h.blocks.get ⟨k, hk⟩) := by
  have hidx := idxAt_addrOf hp 0 k hk
  rw [Nat.zero_add] at hidx
  unfold blockAt
  rw [hidx]
  show h.blocks[k]? = some (h.blocks.get ⟨k, hk⟩)
  rw [List.getElem?_eq_getElem hk, List.get_eq_getElem]

/-- Soundness of the first-fit search: a hit is the address of a free block
large enough for the request. -/
theorem find_fit_spec {h : Heap} (hInv : Inv h) {asize bp : Nat}
    (hff : find_fit h asize = some bp) :
    ∃ k, ∃ hk : k < h.blocks.length, bp = addrOf h.blocks k ∧
      (h.blocks.get ⟨k, hk⟩).alloc = false ∧ asize ≤ (h.blocks.get ⟨k, hk⟩).size := by
  obtain ⟨hp, hperm⟩ := hInv
  unfold find_fit at hff
  obtain ⟨i, hi, hfind⟩ := List.exists_of_findSome?_eq_some hff
  have hmem : bp ∈ h.flists i := List.mem_of_find?_eq_some hfind
  have hfits : fitsAt h asize bp = true := List.find?_some hfind
  have hmem' : bp ∈ freeAddrs 0 i.val h.blocks := (hperm i).mem_iff.mp hmem
  obtain ⟨k, hk, hbpk, hfree, hclass⟩ := (mem_freeAddrs_iff hp 0 i.val bp).mp hmem'
  have hbp' : bp = addrOf h.blocks k := by simpa using hbpk
  refine ⟨k, hk, hbp', hfree, ?_⟩
  rw [hbp'] at hfits
  unfold fitsAt at hfits
  rw [blockAt_addrOf hp hk] at hfits
  simpa using hfits

theorem allocAddrs_middle2_t_f (P S : List Blk) (s1 s2 a : Nat) :
    allocAddrs a (P ++ ⟨s1, true⟩ :: ⟨s2, false⟩ :: S) =
      allocAddrs a P ++
        (a + sizeSum P) :: allocAddrs (a + sizeSum P + s1 + s2) S := by
  rw [allocAddrs_middle2]
  simp

/-- `place` keeps every allocated block allocated at its address. -/
theorem place_allocAt {fl : Fin SEGSIZE → List Nat} {P S : List Blk} {bk : Blk}
    {asize : Nat} (hp : sizesPos (P ++ bk :: S)) (hfree : bk.alloc = false) :
    ∀ x, x ∈ allocAddrs 0 (P ++ bk :: S) →
      x ∈ allocAddrs 0 (place ⟨P ++ bk :: S, fl⟩ (sizeSum P) asize).blocks := by
  intro x hx
  rw [allocAddrs_middle_var_free hfree] at hx
  simp only [Nat.zero_add] at hx
  rw [place_some (idxAt_middle hp)]
  simp only [getElem?_middle, Option.map_some', Option.getD_some]
  split_ifs with hsp
  · have hD : DSIZE = 16 := rfl
    have hlt : asize < bk.size := by omega
    rw [take_middle, drop_middle]
    show x ∈ allocAddrs 0 (P ++ ⟨asize, true⟩ :: ⟨bk.size - asize, false⟩ :: S)
    rw [allocAddrs_middle2_t_f]
    simp only [Nat.zero_add]
    rw [show sizeSum P + asize + (bk.size - asize) = sizeSum P + bk.size
      from by omega]
    rcases List.mem_append.mp hx with hx | hx
    · exact List.mem_append.mpr (Or.inl hx)
    · exact List.mem_append.mpr (Or.inr (List.mem_cons_of_mem _ hx))
  · rw [set_middle]
    show x ∈ allocAddrs 0 (P ++ ⟨bk.size, true⟩ :: S)
    rw [allocAddrs_middle_t]
    simp only [Nat.zero_add]
    rcases List.mem_append.mp hx with hx | hx
    · exact List.mem_append.mpr (Or.inl hx)
    · exact List.mem_append.mpr (Or.inr (List.mem_cons_of_mem _ hx))

theorem extend_heap_true (h : Heap) (words : Nat) :
    extend_heap h words true =
      some (coalesce { h with blocks := h.blocks ++
        [⟨if words % 2 = 1 then (words + 1) * WSIZE else words * WSIZE, false⟩] }
        h.blocks.length) := by
  rfl

/-- The freshly appended free block is in `coalesce`'s expected state. -/
theorem append_preCoal {h : Heap} (hInv : Inv h) {sz : Nat} (hszpos : 0 < sz) :
    PreCoal { h with blocks := h.blocks ++ [⟨sz, false⟩] } h.blocks.length := by
  obtain ⟨hp, hperm⟩ := hInv
  refine ⟨?_, ?_, ?_, ?_⟩
  · show sizesPos (h.blocks ++ [⟨sz, false⟩])
    apply sizesPos_append.mpr
    refine ⟨hp, ?_⟩
    intro b hb
    simp only [List.mem_singleton] at hb
    rw [hb]
    exact hszpos
  · show h.blocks.length < (h.blocks ++ [(⟨sz, false⟩ : Blk)]).length
    simp
  · show ((h.blocks ++ [⟨sz, false⟩])[h.blocks.length]?).map Blk.alloc = some false
    rw [show h.blocks ++ [(⟨sz, false⟩ : Blk)] =
        h.blocks ++ (⟨sz, false⟩ : Blk) :: [] from rfl, getElem?_middle' rfl]
    rfl
  · intro i
    show (h.flists i).Perm ((freeAddrs 0 i.val (h.blocks ++ [⟨sz, false⟩])).erase
      (addrOf (h.blocks ++ [⟨sz, false⟩]) h.blocks.length))
    rw [show h.blocks ++ [(⟨sz, false⟩ : Blk)] =
        h.blocks ++ (⟨sz, false⟩ : Blk) :: [] from rfl,
      addrOf_middle' rfl, freeAddrs_middle_free]
    simp only [Nat.zero_add]
    have hF : sizeSum h.blocks ∉ freeAddrs 0 i.val h.blocks := by
      intro hmem
      have := lt_of_mem_freeAddrs hp hmem
      omega
    have hG : sizeSum h.blocks ∉
        freeAddrs (sizeSum h.blocks + sz) i.val ([] : List Blk) := by
      intro hmem
      cases hmem
    rw [← List.append_assoc, erase_opt_middle _ _ _ _ hF hG]
    rw [show freeAddrs (sizeSum h.blocks + sz) i.val ([] : List Blk) = []
      from rfl, List.append_nil]
    exact hperm i

/-- `extend_heap` with a successful `mem_sbrk` returns the coalesced fresh
free block and preserves the invariant and all allocated blocks. -/
theorem extend_spec {h : Heap} (hInv : Inv h) {words : Nat} (hw0 : 0 < words) :
    ∃ h1 bp, extend_heap h words true = some (h1, bp) ∧ Inv h1 ∧
      (∃ P S msize, h1.blocks = P ++ ⟨msize, false⟩ :: S ∧ bp = sizeSum P) ∧
      allocAddrs 0 h1.blocks = allocAddrs 0 h.blocks := by
  have hszpos : 0 < (if words % 2 = 1 then (words + 1) * WSIZE
      else words * WSIZE) := by
    unfold WSIZE
    split_ifs with hw <;> omega
  have hpre := append_preCoal hInv hszpos
  obtain ⟨hInv1, hEx, hAlloc⟩ := coalesce_spec hpre
  refine ⟨(coalesce { h with blocks := h.blocks ++
      [⟨if words % 2 = 1 then (words + 1) * WSIZE else words * WSIZE, false⟩] }
      h.blocks.length).1,
    (coalesce { h with blocks := h.blocks ++
      [⟨if words % 2 = 1 then (words + 1) * WSIZE else words * WSIZE, false⟩] }
      h.blocks.length).2, extend_heap_true h words, hInv1, hEx, ?_⟩
  rw [hAlloc]
  show allocAddrs 0 (h.blocks ++
    [⟨if words % 2 = 1 then (words + 1) * WSIZE else words * WSIZE, false⟩]) =
    allocAddrs 0 h.blocks
  have hfr : ∀ b ∈ [(⟨if words % 2 = 1 then (words + 1) * WSIZE
      else words * WSIZE, false⟩ : Blk)], b.alloc = false := by
    intro b hb
    simp only [List.mem_singleton] at hb
    rw [hb]
  rw [allocAddrs_append, allocAddrs_nil_of_free hfr, List.append_nil]

theorem asizeOf_ge (size : Nat) : 2 * DSIZE ≤ asizeOf size :=
  adjust_ge _

/-- `mm_malloc` preserves the free-list invariant and never disturbs an
allocated block. -/
theorem malloc_spec {h : Heap} (hInv : Inv h) (size : Nat) (ok : Bool) :
    Inv (mm_malloc h size ok).2 ∧
      ∀ x, AllocAt h x → AllocAt (mm_malloc h size ok).2 x := by
  by_cases h0 : size = 0
  · subst h0
    rw [show mm_malloc h 0 ok = (none, h) from by unfold mm_malloc; rw [if_pos rfl]]
    exact ⟨hInv, fun _ hx => hx⟩
  · have hasz : 0 < asizeOf size := by
      have := asizeOf_ge size
      unfold DSIZE WSIZE at this
      omega
    rcases hff : find_fit h (asizeOf size) with _ | bp
    · -- no fit: extend the heap (or fail if `mem_sbrk` does)
      cases ok with
      | false =>
        rw [show mm_malloc h size false = (none, h) from by
          unfold mm_malloc
          rw [if_neg h0, hff]
          rfl]
        exact ⟨hInv, fun _ hx => hx⟩
      | true =>
        have hwords : 0 < max (asizeOf size) CHUNKSIZE / WSIZE := by
          unfold CHUNKSIZE WSIZE
          have hc : 4096 ≤ max (asizeOf size) 4096 := Nat.le_max_right _ _
          omega
        obtain ⟨h1, bp, hext, hInv1, ⟨P, S, msize, hblocks, hbp⟩, hAlloc⟩ :=
          extend_spec hInv hwords
        have hmm : mm_malloc h size true = (some bp, place h1 bp (asizeOf size)) := by
          unfold mm_malloc
          rw [if_neg h0, hff, hext]
        rw [hmm]
        obtain ⟨bs1, fl1⟩ := h1
        simp only at hblocks hAlloc
        subst hblocks
        subst hbp
        constructor
        · exact place_inv hInv1.1 hInv1.2 rfl hasz
        · intro x hx
          have hx1 : x ∈ allocAddrs 0 (P ++ (⟨msize, false⟩ : Blk) :: S) := by
            rw [hAlloc]
            exact hx
          exact place_allocAt hInv1.1 rfl x hx1
    · -- fit found
      have hmm : mm_malloc h size ok = (some bp, place h bp (asizeOf size)) := by
        unfold mm_malloc
        rw [if_neg h0, hff]
      obtain ⟨k, hk, hbp, hfree, hsz⟩ := find_fit_spec hInv hff
      rw [hmm]
      obtain ⟨bs, fl⟩ := h
      simp only at hbp hfree hsz hk
      obtain ⟨P, S, bk, hdec, hPlen, hbk⟩ :
          ∃ P S bk, bs = P ++ bk :: S ∧ P.length = k ∧ bk = bs.get ⟨k, hk⟩ :=
        ⟨bs.take k, bs.drop (k + 1), bs.get ⟨k, hk⟩, take_get_drop bs k hk,
          by simpa using Nat.le_of_lt hk, rfl⟩
      subst hdec
      have hfree' : bk.alloc = false := by
        rw [hbk]
        exact hfree
      have hbp' : bp = sizeSum P := by
        rw [hbp, addrOf_middle' hPlen]
      rw [hbp']
      obtain ⟨hp, hperm⟩ := hInv
      simp only at hp hperm
      exact ⟨place_inv hp hperm hfree' hasz,
        fun x hx => place_allocAt hp hfree' x hx⟩

/-- `mm_realloc` preserves the free-list invariant when its pointer argument
is null or the address of an allocated block (the documented requirement). -/
theorem realloc_inv {h : Heap} (hInv : Inv h) (ptr : Option Nat) (size : Nat)
    (ok : Bool) (hptr : ∀ a, ptr = some a → AllocAt h a) :
    Inv (mm_realloc h ptr size ok).2 := by
  unfold mm_realloc
  split_ifs with h0
  · rcases ptr with _ | a
    · exact hInv
    · exact free_inv hInv (hptr a rfl)
  · rcases ptr with _ | a
    · exact (malloc_spec hInv size ok).1
    · rcases hba : blockAt h a with _ | b
      · simp only [hba]
        exact hInv
      · simp only [hba]
        split_ifs with hin
        · exact hInv
        · rcases hmm : mm_malloc h (SEGSIZE * size) ok with ⟨r, h1⟩
          have hInv1 : Inv h1 := by
            have hI := (malloc_spec hInv (SEGSIZE * size) ok).1
            rw [hmm] at hI
            exact hI
          rcases r with _ | np
          · exact hInv1
          · have hAl : AllocAt h1 a := by
              have hA := (malloc_spec hInv (SEGSIZE * size) ok).2 a (hptr a rfl)
              rw [hmm] at hA
              exact hA
            exact free_inv hInv1 hAl

/-- The permutation form of the invariant yields the claim's block-by-block
membership statement. -/
theorem Inv_FLMem {h : Heap} (hInv : Inv h) : FLMem h := by
  obtain ⟨hp, hperm⟩ := hInv
  intro k hk
  constructor
  · intro hfree
    constructor
    · have hmem : addrOf h.blocks k ∈
          freeAddrs 0 (segFin (h.blocks.get ⟨k, hk⟩).size).val h.blocks := by
        apply (mem_freeAddrs_iff hp 0 _ _).mpr
        exact ⟨k, hk, by simp, hfree, rfl⟩
      rw [(hperm _).count_eq]
      exact List.count_eq_one_of_mem (nodup_freeAddrs hp _ _) hmem
    · intro i hi hmem
      have hmem' := (hperm i).mem_iff.mp hmem
      obtain ⟨k', hk', haddr, hfree', hclass⟩ :=
        (mem_freeAddrs_iff hp 0 i.val _).mp hmem'
      have hkk : k = k' := by
        refine addrOf_inj hp hk hk' ?_
        simpa using haddr
      subst hkk
      exact hi hclass.symm
  · intro halloc i hmem
    have hmem' := (hperm i).mem_iff.mp hmem
    obtain ⟨k', hk', haddr, hfree', hclass⟩ :=
      (mem_freeAddrs_iff hp 0 i.val _).mp hmem'
    have hkk : k = k' := by
      refine addrOf_inj hp hk hk' ?_
      simpa using haddr
    subst hkk
    rw [halloc] at hfree'
    cases hfree'

theorem init_inv : ∀ h, mm_init true = some h → Inv h := by decide

/-! ### Claim theorems -/

/-- A small concrete state used to exercise the theorems: one allocated
32-byte block followed by a free 4064-byte block (class 7), as after
`init` plus one small allocation. -/
def demoHeap : Heap :=
  ⟨[⟨32, true⟩, ⟨4064, false⟩], Function.update (fun _ => []) (segFin 4064) [32]⟩

/-- A state with a single allocated block and empty free lists; every
further allocation must extend the heap. -/
def fullHeap : Heap := ⟨[⟨32, true⟩], fun _ => []⟩

/-- A state whose first block was just marked free but not yet inserted into
any list: exactly `coalesce`'s expected input. -/
def preHeap : Heap := ⟨[⟨32, false⟩, ⟨32, true⟩], fun _ => []⟩

theorem seg_index_band (s : Nat) :
    (s ≤ 32 → seg_index s = 0) ∧ (32 < s → s ≤ 64 → seg_index s = 1) ∧
    (64 < s → s ≤ 128 → seg_index s = 2) ∧
    (128 < s → s ≤ 256 → seg_index s = 3) ∧
    (256 < s → s ≤ 512 → seg_index s = 4) ∧
    (512 < s → s ≤ 1024 → seg_index s = 5) ∧
    (1024 < s → s ≤ 2048 → seg_index s = 6) ∧
    (2048 < s → s ≤ 4096 → seg_index s = 7) ∧
    (4096 < s → s ≤ 8192 → seg_index s = 8) ∧
    (8192 < s → seg_index s = 9) := by
  unfold seg_index
  split_ifs <;> omega

theorem seg_index_lower (s : Nat) :
    (32 < s → 1 ≤ seg_index s) ∧ (64 < s → 2 ≤ seg_index s) ∧
    (128 < s → 3 ≤ seg_index s) ∧ (256 < s → 4 ≤ seg_index s) ∧
    (512 < s → 5 ≤ seg_index s) ∧ (1024 < s → 6 ≤ seg_index s) ∧
    (2048 < s → 7 ≤ seg_index s) ∧ (4096 < s → 8 ≤ seg_index s) ∧
    (8192 < s → 9 ≤ seg_index s) := by
  unfold seg_index
  split_ifs <;> omega

/-- C6: `seg_index` (the spec's `classify`) is monotonic non-decreasing, and
maps sizes by the documented thresholds: at most 32 to class 0, 64 to 1,
128 to 2, 256 to 3, 512 to 4, 1024 to 5, 2048 to 6, 4096 to 7, 8192 to 8,
and every larger size to class 9. -/
theorem seg_index_monotone_and_thresholds :
    (∀ a b : Nat, a ≤ b → seg_index a ≤ seg_index b) ∧
    ∀ s : Nat,
      (s ≤ 32 → seg_index s = 0) ∧
      (32 < s → s ≤ 64 → seg_index s = 1) ∧
      (64 < s → s ≤ 128 → seg_index s = 2) ∧
      (128 < s → s ≤ 256 → seg_index s = 3) ∧
      (256 < s → s ≤ 512 → seg_index s = 4) ∧
      (512 < s → s ≤ 1024 → seg_index s = 5) ∧
      (1024 < s → s ≤ 2048 → seg_index s = 6) ∧
      (2048 < s → s ≤ 4096 → seg_index s = 7) ∧
      (4096 < s → s ≤ 8192 → seg_index s = 8) ∧
      (8192 < s → seg_index s = 9) := by
  refine ⟨?_, seg_index_band⟩
  intro a b hab
  have hb := seg_index_lower b
  have ha := seg_index_band a
  by_cases h1 : a ≤ 32
  · rw [ha.1 h1]
    omega
  · by_cases h2 : a ≤ 64
    · rw [ha.2.1 (by omega) h2]
      exact hb.1 (by omega)
    · by_cases h3 : a ≤ 128
      · rw [ha.2.2.1 (by omega) h3]
        exact hb.2.1 (by omega)
      · by_cases h4 : a ≤ 256
        · rw [ha.2.2.2.1 (by omega) h4]
          exact hb.2.2.1 (by omega)
        · by_cases h5 : a ≤ 512
          · rw [ha.2.2.2.2.1 (by omega) h5]
            exact hb.2.2.2.1 (by omega)
          · by_cases h6 : a ≤ 1024
            · rw [ha.2.2.2.2.2.1 (by omega) h6]
              exact hb.2.2.2.2.1 (by omega)
            · by_cases h7 : a ≤ 2048
              · rw [ha.2.2.2.2.2.2.1 (by omega) h7]
                exact hb.2.2.2.2.2.1 (by omega)
              · by_cases h8 : a ≤ 4096
                · rw [ha.2.2.2.2.2.2.2.1 (by omega) h8]
                  exact hb.2.2.2.2.2.2.1 (by omega)
                · by_cases h9 : a ≤ 8192
                  · rw [ha.2.2.2.2.2.2.2.2.1 (by omega) h9]
                    exact hb.2.2.2.2.2.2.2.1 (by omega)
                  · rw [ha.2.2.2.2.2.2.2.2.2 (by omega)]
                    exact hb.2.2.2.2.2.2.2.2 (by omega)

/-- Witness for the monotonicity and threshold claim at concrete sizes. -/
theorem seg_index_monotone_and_thresholds_w :
    seg_index 40 ≤ seg_index 5000 ∧ seg_index 5000 = 8 :=
  ⟨seg_index_monotone_and_thresholds.1 40 5000 (by decide),
   (seg_index_monotone_and_thresholds.2 5000).2.2.2.2.2.2.2.2.1 (by decide)
     (by decide)⟩

/-- C9: `seg_index` always returns a class index below `SEGSIZE` (= 10), so
the accesses to the ten-entry sentinel table made by `list_insert` (through
`segFin`) and by every class visited in `find_fit`'s ascending scan are in
bounds. -/
theorem seg_index_in_bounds :
    (∀ size : Nat, seg_index size < SEGSIZE) ∧
    (∀ size : Nat, (segFin size).val = seg_index size) ∧
    (∀ asize : Nat, ∀ i ∈ findFitClasses asize, i.val < SEGSIZE) := by
  refine ⟨seg_index_lt_segsize, fun _ => rfl, ?_⟩
  intro asize i _
  exact i.isLt

/-- Witness for the bounds claim at concrete inputs. -/
theorem seg_index_in_bounds_w :
    seg_index 100000 < SEGSIZE ∧
      ((⟨4, by decide⟩ : Fin SEGSIZE)).val < SEGSIZE :=
  ⟨seg_index_in_bounds.1 100000,
   seg_index_in_bounds.2.2 300 ⟨4, by decide⟩ (by decide)⟩

/-- C5 (code defect): the checker's adjacency walk reports on the pair
"allocated block followed by free block" — its condition is
`GET_ALLOC(current) && !GET_ALLOC(next)` — and not on pairs of two free
blocks, contradicting its own message ("Ajacent blocks are free and
uncoalesced!") and the claim: on the heap [Allocated 32, Free 32] it
reports (pair 1) though no two adjacent blocks are both free, and on
[Free 32, Free 32] its only report is pair 0 (the prologue pair) while the
genuinely uncoalesced pair 1 is not among the reported pairs. -/
theorem checkheap_scan_wrong_condition :
    reportedPairs [⟨32, true⟩, ⟨32, false⟩] = [1] ∧
    bothFreePairs [⟨32, true⟩, ⟨32, false⟩] = [] ∧
    reportedPairs [⟨32, false⟩, ⟨32, false⟩] = [0] ∧
    bothFreePairs [⟨32, false⟩, ⟨32, false⟩] = [1] := by
  decide

set_option maxRecDepth 10000 in
/-- C7: for every request of 1 to `16 * DSIZE` bytes, `mm_malloc` first
rounds the request to the least power of two at least the request
(`next_power_of_2`), and the adjusted total block size is `2 * DSIZE` when
that power is at most `DSIZE` and otherwise the power plus one double-word
of header/footer overhead rounded up to the alignment unit; the adjusted
size is never below `2 * DSIZE`. -/
theorem malloc_small_request_rounding :
    ∀ size : Nat, 1 ≤ size → size ≤ 16 * DSIZE →
      ((∃ k, next_power_of_2 size = 2 ^ k) ∧
        size ≤ next_power_of_2 size ∧
        (∀ m : Nat, size ≤ 2 ^ m → next_power_of_2 size ≤ 2 ^ m)) ∧
      (next_power_of_2 size ≤ DSIZE → asizeOf size = 2 * DSIZE) ∧
      (DSIZE < next_power_of_2 size →
        asizeOf size = ALIGN_SIZE *
          ((next_power_of_2 size + DSIZE + (ALIGN_SIZE - 1)) / ALIGN_SIZE)) ∧
      2 * DSIZE ≤ asizeOf size := by
  have key : ∀ s, s < 257 → 1 ≤ s →
      ((List.range 9).any (fun k => next_power_of_2 s == 2 ^ k) = true ∧
        s ≤ next_power_of_2 s ∧ next_power_of_2 s < 2 * s) ∧
      (next_power_of_2 s ≤ DSIZE → asizeOf s = 2 * DSIZE) ∧
      (DSIZE < next_power_of_2 s →
        asizeOf s = ALIGN_SIZE *
          ((next_power_of_2 s + DSIZE + (ALIGN_SIZE - 1)) / ALIGN_SIZE)) ∧
      2 * DSIZE ≤ asizeOf s := by decide
  have hmin : ∀ k r : Nat, r = 2 ^ k → ∀ s, s ≤ r → r < 2 * s →
      ∀ m, s ≤ 2 ^ m → r ≤ 2 ^ m := by
    intro k r hpow s hsr hr2 m hsm
    by_contra hlt
    push_neg at hlt
    have hm : 2 ^ m < 2 ^ k := by omega
    have hmk : m < k := by
      rcases Nat.lt_or_ge m k with hc | hc
      · exact hc
      · have hle := Nat.pow_le_pow_right (show 0 < 2 by omega) hc
        omega
    have h2 : 2 ^ (m + 1) ≤ 2 ^ k := Nat.pow_le_pow_right (by omega) hmk
    rw [Nat.pow_succ] at h2
    omega
  intro size h1 h2
  have h2' : size < 257 := by
    unfold DSIZE WSIZE at h2
    omega
  obtain ⟨⟨hany, hle, hlt2⟩, hsmall, hbig, hbound⟩ := key size h2' h1
  obtain ⟨k, hkmem, hkeq⟩ := List.any_eq_true.mp hany
  have hpow : next_power_of_2 size = 2 ^ k := by simpa using hkeq
  refine ⟨⟨⟨k, hpow⟩, hle, ?_⟩, hsmall, hbig, hbound⟩
  intro m hm
  exact hmin k _ hpow size hle hlt2 m hm

/-- Witness for the request-rounding claim at a concrete size. -/
theorem malloc_small_request_rounding_w :
    (∃ k, next_power_of_2 100 = 2 ^ k) ∧
      100 ≤ next_power_of_2 100 ∧ asizeOf 100 = 144 :=
  ⟨(malloc_small_request_rounding 100 (by decide) (by decide)).1.1,
   (malloc_small_request_rounding 100 (by decide) (by decide)).1.2.1,
   by decide⟩

/-- A failing `mm_malloc` leaves the heap exactly as it was. -/
theorem malloc_none {h : Heap} {s : Nat} {ok : Bool}
    (hn : (mm_malloc h s ok).1 = none) : mm_malloc h s ok = (none, h) := by
  by_cases h0 : s = 0
  · unfold mm_malloc
    rw [if_pos h0]
  · rcases hff : find_fit h (asizeOf s) with _ | bp
    · rcases hext : extend_heap h (max (asizeOf s) CHUNKSIZE / WSIZE) ok
        with _ | pr
      · unfold mm_malloc
        rw [if_neg h0, hff, hext]
      · exfalso
        obtain ⟨h1, bp⟩ := pr
        unfold mm_malloc at hn
        rw [if_neg h0, hff, hext] at hn
        simp at hn
    · exfalso
      unfold mm_malloc at hn
      rw [if_neg h0, hff] at hn
      simp at hn

/-- C2 (counterexample): equality is not enough for the in-place path.  On a
heap whose first block is a 32-byte allocated block, `resize` of that block
to 16 bytes has an adjusted total block size of exactly 32 bytes — covered
by the existing block — yet the code takes the reallocation path and
returns a different address (the in-place test on mm.c line 243 is the
strict `asize < oldsize + DSIZE`). -/
theorem resize_equal_size_reallocates :
    blockAt demoHeap 0 = some ⟨32, true⟩ ∧
    adjust 16 ≤ 32 ∧
    (mm_realloc demoHeap (some 0) 16 true).1 ≠ some 0 := by
  decide

/-- C2 (amended): `resize(ptr, size)` with a non-null `ptr` and non-zero
`size` returns `ptr` unchanged, with the heap untouched, whenever the new
adjusted total block size is strictly smaller than the existing block's
size; when the two are equal the code reallocates. -/
theorem resize_in_place_when_strictly_smaller :
    ∀ (h : Heap) (a size : Nat) (b : Blk) (ok : Bool),
      size ≠ 0 → blockAt h a = some b → adjust size < b.size →
      mm_realloc h (some a) size ok = (some a, h) := by
  intro h a size b ok h0 hba hlt
  have h32 : 2 * DSIZE ≤ adjust size := adjust_ge size
  have hD : DSIZE = 16 := rfl
  unfold mm_realloc
  rw [if_neg h0]
  simp only [hba]
  rw [if_pos (by omega)]

/-- Witness: shrinking the free-block-sized request stays in place on the
demo heap. -/
theorem resize_in_place_when_strictly_smaller_w :
    mm_realloc demoHeap (some 32) 16 true = (some 32, demoHeap) :=
  resize_in_place_when_strictly_smaller demoHeap 32 16 ⟨4064, false⟩ true
    (by decide) (by decide) (by decide)

/-- C1: on the reallocation path (non-null pointer, non-zero size, the block
does not satisfy the in-place test) the fresh allocation is requested for
`SEGSIZE * size` bytes — ten times the requested size, and never the
requested size itself. -/
theorem resize_grow_requests_tenfold :
    ∀ (h : Heap) (a size : Nat) (b : Blk) (ok : Bool),
      size ≠ 0 → blockAt h a = some b →
      ¬(adjust size < b.size - DSIZE + DSIZE) →
      (mm_realloc h (some a) size ok =
        (match mm_malloc h (SEGSIZE * size) ok with
         | (none, h1) => (none, h1)
         | (some newptr, h1) => (some newptr, mm_free h1 (some a))) ∧
       SEGSIZE * size = 10 * size ∧ SEGSIZE * size ≠ size) := by
  intro h a size b ok h0 hba hin
  refine ⟨?_, rfl, ?_⟩
  · unfold mm_realloc
    rw [if_neg h0]
    simp only [hba]
    rw [if_neg hin]
  · unfold SEGSIZE
    omega

/-- Witness: growing a 32-byte block to 16 requested bytes forwards a
160-byte request. -/
theorem resize_grow_requests_tenfold_w :
    mm_realloc demoHeap (some 0) 16 true =
      (match mm_malloc demoHeap (SEGSIZE * 16) true with
       | (none, h1) => (none, h1)
       | (some newptr, h1) => (some newptr, mm_free h1 (some 0))) ∧
    SEGSIZE * 16 = 10 * 16 ∧ SEGSIZE * 16 ≠ 16 :=
  resize_grow_requests_tenfold demoHeap 0 16 ⟨32, true⟩ true (by decide)
    (by decide) (by decide)

/-- C8: when the fresh allocation on the reallocation path fails, `resize`
returns the failure marker and the heap — in particular the original block,
its boundary tags and its place in the block sequence — is exactly the heap
it was given: nothing is copied, freed or written. -/
theorem resize_failure_leaves_original_untouched :
    ∀ (h : Heap) (a size : Nat) (b : Blk) (ok : Bool),
      size ≠ 0 → blockAt h a = some b →
      ¬(adjust size < b.size - DSIZE + DSIZE) →
      (mm_malloc h (SEGSIZE * size) ok).1 = none →
      mm_realloc h (some a) size ok = (none, h) ∧ blockAt h a = some b := by
  intro h a size b ok h0 hba hin hn
  refine ⟨?_, hba⟩
  unfold mm_realloc
  rw [if_neg h0]
  simp only [hba]
  rw [if_neg hin, malloc_none hn]

/-- Witness: with empty free lists and a failing `mem_sbrk`, resizing the
only block reports failure and changes nothing. -/
theorem resize_failure_leaves_original_untouched_w :
    mm_realloc fullHeap (some 0) 16 false = (none, fullHeap) ∧
      blockAt fullHeap 0 = some ⟨32, true⟩ :=
  resize_failure_leaves_original_untouched fullHeap 0 16 ⟨32, true⟩ false
    (by decide) (by decide) (by decide) (by decide)

/-- Inserting `bp` after `start` and then unlinking `bp` restores every
other node's links, provided `bp` is a node distinct from `start` and from
`start`'s successor and the local circular-list shape holds at `start`
(its successor's `prev_list` points back at `start`). -/
theorem insert_after_remove_id (m : Nat → Node) (bp start : Nat)
    (h1 : bp ≠ start) (h2 : bp ≠ (m start).next_list)
    (hwf : (m ((m start).next_list)).prev_list = start) :
    ∀ x, x ≠ bp → list_remove (insert_after m bp start) bp x = m x := by
  intro x hx
  by_cases hsn : (m start).next_list = start
  · by_cases hxs : x = start
    · subst hxs
      have hw : (m x).prev_list = x := by rw [hsn] at hwf; exact hwf
      simp [insert_after, list_remove, Function.update_apply, h1, h2, hsn, hw,
        Ne.symm h1, Ne.symm h2, hx]
      rcases hmx : m x with ⟨a, b⟩
      rw [hmx] at hsn hw
      simp_all
    · simp [insert_after, list_remove, Function.update_apply, h1, h2, hsn,
        Ne.symm h1, Ne.symm h2, hx, hxs]
  · by_cases hxs : x = start
    · subst hxs
      simp [insert_after, list_remove, Function.update_apply, h1, h2, hsn,
        Ne.symm h1, Ne.symm h2, hx, Ne.symm hsn]
    · by_cases hxn : x = (m start).next_list
      · subst hxn
        simp [insert_after, list_remove, Function.update_apply, h1, h2, hsn,
          Ne.symm h1, Ne.symm h2, hx, hxs]
        rcases hmx : m ((m start).next_list) with ⟨a, b⟩
        rw [hmx] at hwf
        simp_all
      · simp [insert_after, list_remove, Function.update_apply, h1, h2, hsn,
          Ne.symm h1, Ne.symm h2, hx, hxs, hxn]

/-- C10: `list_insert(bp, size)` followed by `list_remove(bp)` is the
identity on the affected size-class list: every node other than `bp` —
including the class sentinel and the node that was the sentinel's successor
— has exactly the `next_list`/`prev_list` values it had before the
insertion.  The hypotheses state that `bp` is not currently a node of the
list (it is distinct from the sentinel and from the sentinel's successor)
and the circular-list well-formedness at the splice point (the sentinel's
successor points back at the sentinel). -/
theorem list_insert_remove_id (seg_first : Fin SEGSIZE → Nat) (m : Nat → Node)
    (bp size : Nat)
    (h1 : bp ≠ seg_first (segFin size))
    (h2 : bp ≠ (m (seg_first (segFin size))).next_list)
    (hwf : (m ((m (seg_first (segFin size))).next_list)).prev_list =
      seg_first (segFin size)) :
    ∀ x, x ≠ bp → list_remove (list_insert seg_first m bp size) bp x = m x := by
  intro x hx
  exact insert_after_remove_id m bp (seg_first (segFin size)) h1 h2 hwf x hx

/-- Witness: on an empty class (sentinel 0 pointing at itself), inserting
node 5 and removing it leaves node 3's links as they were. -/
theorem list_insert_remove_id_w :
    list_remove (list_insert (fun _ => 0) (fun _ => ⟨0, 0⟩) 5 40) 5 3 =
      (⟨0, 0⟩ : Node) :=
  list_insert_remove_id (fun _ => 0) (fun _ => ⟨0, 0⟩) 5 40 (by decide)
    (by decide) (by decide) 3 (by decide)

/-- C3: after a successful `init` the free-list membership invariant holds
— every Free block is on exactly one class list, the one at
`seg_index(size)`, and no Allocated block is on any list — and it is
preserved by `allocate`, `free` and `resize`, each applied to a state
satisfying the heap invariant with any freed pointer actually allocated. -/
theorem free_list_membership_invariant :
    (∀ h : Heap, mm_init true = some h → Inv h ∧ FLMem h) ∧
    (∀ (h : Heap) (size : Nat) (ok : Bool), Inv h →
      Inv (mm_malloc h size ok).2 ∧ FLMem (mm_malloc h size ok).2) ∧
    (∀ (h : Heap) (bp : Option Nat), Inv h →
      (∀ a, bp = some a → AllocAt h a) →
      Inv (mm_free h bp) ∧ FLMem (mm_free h bp)) ∧
    (∀ (h : Heap) (ptr : Option Nat) (size : Nat) (ok : Bool), Inv h →
      (∀ a, ptr = some a → AllocAt h a) →
      Inv (mm_realloc h ptr size ok).2 ∧ FLMem (mm_realloc h ptr size ok).2) := by
  refine ⟨?_, ?_, ?_, ?_⟩
  · intro h hinit
    have hI := init_inv h hinit
    exact ⟨hI, Inv_FLMem hI⟩
  · intro h size ok hI
    have hI2 := (malloc_spec hI size ok).1
    exact ⟨hI2, Inv_FLMem hI2⟩
  · intro h bp hI hbp
    have hI2 : Inv (mm_free h bp) := by
      rcases bp with _ | a
      · exact hI
      · exact free_inv hI (hbp a rfl)
    exact ⟨hI2, Inv_FLMem hI2⟩
  · intro h ptr size ok hI hptr
    have hI2 := realloc_inv hI ptr size ok hptr
    exact ⟨hI2, Inv_FLMem hI2⟩

/-- Witness: the invariant survives an allocation on the demo heap. -/
theorem free_list_membership_invariant_w :
    Inv (mm_malloc demoHeap 16 true).2 ∧ FLMem (mm_malloc demoHeap 16 true).2 :=
  free_list_membership_invariant.2.1 demoHeap 16 true (by decide)

/-- C4: `coalesce` on a newly freed block merges it with exactly its free
physical neighbours — case 1 no merge, case 2 absorb the successor
(removing it from its list), case 3 absorb the predecessor (removing it;
the result sits at the predecessor's address, which is returned), case 4
absorb both — returns the merged block's address, and itself concludes with
the `list_insert` of the merged block into the class of its final size
(conjunct 5: the returned address is on the class list of the merged size,
exactly once); its callers `mm_free` and `extend_heap` invoke `coalesce`
and perform no separate insert (conjuncts 6 and 7). -/
theorem coalesce_merges_inserts :
    (∀ (h : Heap) (k : Nat) (bk : Blk),
      h.blocks[k]? = some bk →
      (k == 0 || ((h.blocks[k - 1]?).map Blk.alloc).getD true) = true →
      ((h.blocks[k + 1]?).map Blk.alloc).getD true = true →
      coalesce h k =
        ({ blocks := h.blocks,
           flists := listsInsert h.flists (addrOf h.blocks k) bk.size },
          addrOf h.blocks k)) ∧
    (∀ (h : Heap) (k : Nat) (bk bn : Blk),
      h.blocks[k]? = some bk →
      (k == 0 || ((h.blocks[k - 1]?).map Blk.alloc).getD true) = true →
      h.blocks[k + 1]? = some bn → bn.alloc = false →
      coalesce h k =
        ({ blocks := h.blocks.take k ++ ⟨bk.size + bn.size, false⟩ ::
             h.blocks.drop (k + 2),
           flists := listsInsert (listsRemove h.flists (addrOf h.blocks (k + 1)))
             (addrOf h.blocks k) (bk.size + bn.size) },
          addrOf h.blocks k)) ∧
    (∀ (h : Heap) (j : Nat) (bk bp : Blk),
      h.blocks[j + 1]? = some bk →
      h.blocks[j]? = some bp → bp.alloc = false →
      ((h.blocks[j + 2]?).map Blk.alloc).getD true = true →
      coalesce h (j + 1) =
        ({ blocks := h.blocks.take j ++ ⟨bk.size + bp.size, false⟩ ::
             h.blocks.drop (j + 2),
           flists := listsInsert (listsRemove h.flists (addrOf h.blocks j))
             (addrOf h.blocks j) (bk.size + bp.size) },
          addrOf h.blocks j)) ∧
    (∀ (h : Heap) (j : Nat) (bk bp bn : Blk),
      h.blocks[j + 1]? = some bk →
      h.blocks[j]? = some bp → bp.alloc = false →
      h.blocks[j + 2]? = some bn → bn.alloc = false →
      coalesce h (j + 1) =
        ({ blocks := h.blocks.take j ++ ⟨bk.size + bp.size + bn.size, false⟩ ::
             h.blocks.drop (j + 3),
           flists := listsInsert
             (listsRemove (listsRemove h.flists (addrOf h.blocks j))
               (addrOf h.blocks (j + 2)))
             (addrOf h.blocks j) (bk.size + bp.size + bn.size) },
          addrOf h.blocks j)) ∧
    (∀ (h : Heap) (k : Nat), PreCoal h k →
      ∃ P S msize, (coalesce h k).1.blocks = P ++ ⟨msize, false⟩ :: S ∧
        (coalesce h k).2 = sizeSum P ∧
        ((coalesce h k).1.flists (segFin msize)).count (sizeSum P) = 1) ∧
    (∀ (h : Heap) (x k : Nat), idxAt 0 h.blocks x = some k →
      mm_free h (some x) =
        (coalesce { h with blocks := markFree h.blocks k } k).1) ∧
    (∀ (h : Heap) (words : Nat),
      extend_heap h words true =
        some (coalesce { h with blocks := h.blocks ++
          [⟨if words % 2 = 1 then (words + 1) * WSIZE else words * WSIZE, false⟩] }
          h.blocks.length)) := by
  refine ⟨?_, ?_, ?_, ?_, ?_, ?_, ?_⟩
  · intro h k bk hget hpa hna
    simp only [coalesce, hget, hpa, hna, Bool.and_self, if_true]
  · intro h k bk bn hget hpa hgetn hbnal
    simp only [coalesce, hget, hgetn, hpa, hbnal, Option.map_some', Option.getD_some,
      Bool.and_false, Bool.not_false, Bool.and_true, if_true, Bool.false_eq_true,
      if_false]
  · intro h j bk bp hget hgetp hbpal hna
    have hk0 : ((j + 1 : Nat) == 0) = false := by simp
    have hidx2 : j + 1 + 1 = j + 2 := rfl
    simp only [coalesce, hget, hgetp, hbpal, hidx2, hna, hk0, Option.map_some',
      Option.getD_some, Nat.add_sub_cancel, Bool.false_or, Bool.and_true,
      Bool.not_true, Bool.and_false, Bool.false_and, Bool.not_false, Bool.true_and,
      if_true, Bool.false_eq_true, if_false]
  · intro h j bk bp bn hget hgetp hbpal hgetn hbnal
    have hk0 : ((j + 1 : Nat) == 0) = false := by simp
    have hidx2 : j + 1 + 1 = j + 2 := rfl
    have hidx3 : j + 1 + 2 = j + 3 := rfl
    simp only [coalesce, hget, hgetp, hbpal, hgetn, hbnal, hidx2, hidx3, hk0,
      Option.map_some', Option.getD_some, Nat.add_sub_cancel, Bool.false_or,
      Bool.and_true, Bool.not_true, Bool.and_false, Bool.false_and, Bool.not_false,
      Bool.true_and, if_true, Bool.false_eq_true, if_false]
  · intro h k hpre
    obtain ⟨hInv, ⟨P, S, msize, hblocks, hret⟩, _⟩ := coalesce_spec hpre
    have hflm := Inv_FLMem hInv
    have hlen : P.length < (coalesce h k).1.blocks.length := by
      rw [hblocks]
      simp
    have hget : (coalesce h k).1.blocks.get ⟨P.length, hlen⟩ = ⟨msize, false⟩ := by
      rw [List.get_eq_getElem, ← Option.some.injEq, ← List.getElem?_eq_getElem hlen,
        hblocks, getElem?_middle' rfl]
    have haddr : addrOf (coalesce h k).1.blocks P.length = sizeSum P := by
      rw [hblocks, addrOf_middle' rfl]
    have h1 := ((hflm P.length hlen).1 (by rw [hget]))
    rw [hget, haddr] at h1
    exact ⟨P, S, msize, hblocks, hret, h1.1⟩
  · intro h x k hidx
    exact mm_free_some hidx
  · intro h words
    exact extend_heap_true h words

/-- Witness: coalescing the just-freed first block of `preHeap` produces a
block whose address lies exactly once on the list of its class. -/
theorem coalesce_merges_inserts_w :
    ∃ P S msize, (coalesce preHeap 0).1.blocks = P ++ ⟨msize, false⟩ :: S ∧
      (coalesce preHeap 0).2 = sizeSum P ∧
      ((coalesce preHeap 0).1.flists (segFin msize)).count (sizeSum P) = 1 :=
  coalesce_merges_inserts.2.2.2.2.1 preHeap 0 (by decide)

end MM
